import Mathlib

/-!
Verification of the decision loop and structured-output pipeline of the
form-agent repository.

The development shallowly embeds the JSON-processing core of the agent:

* a JSON value model (`JVal`) together with a serializer modelling
  `JSON.stringify` and a parser modelling `JSON.parse`;
* the extraction/repair pipeline of `src/ai/api-calls.ts`
  (`extractJsonFromText`, `repairMalformedJSON`, `repairDecisionObject`,
  `repairPlanSteps`) and the transcript truncation of `makeAICall`;
* the decision validation of `src/agent.ts` (`validateDecision` plus the
  parse/validate/default logic of `runCodingAgent`), the planning-phase
  complexity heuristic, and the resource-capped tool handlers
  `handleWritePatch` / `handleRunCmd`.

Modelling conventions:

* JS strings are `String`/`List Char`; all character-level operations are
  re-implemented over `List Char` so that every definition evaluates inside
  the kernel.
* JSON numbers are modelled as integers.  No input relevant to the theorems
  below contains fractional or exponent-notation numbers; the parser rejects
  them, mirroring the fact that they are outside the modelled fragment.
* Functions that consume a variable number of characters per step take an
  explicit fuel argument (always called with enough fuel for the input at
  hand); all other recursion is structural.
-/

namespace FormAgent

set_option maxRecDepth 10000

/-! ### Characters and character-list utilities -/

/-- The double-quote character. -/
def dquote : Char := Char.ofNat 34

/-- The backslash character. -/
def bslash : Char := Char.ofNat 92

/-- The left brace character. -/
def lbrace : Char := Char.ofNat 123

/-- The right brace character. -/
def rbrace : Char := Char.ofNat 125

/-- The left bracket character. -/
def lbrack : Char := Char.ofNat 91

/-- The right bracket character. -/
def rbrack : Char := Char.ofNat 93

/-- The backtick character. -/
def btick : Char := Char.ofNat 96

/-- Whitespace in the sense of JSON and of the ASCII fragment of the JS
`\s` class / `String.prototype.trim` (space, newline, tab, carriage return). -/
def isWsChar (c : Char) : Bool :=
  c = ' ' || c = '\n' || c = '\t' || c = '\x0d'

/-- ASCII decimal digit test. -/
def isDigitChar (c : Char) : Bool :=
  '0' ≤ c && c ≤ '9'

/-- ASCII lower-casing of one character (models `String.prototype.toLowerCase`
on the ASCII inputs that appear in this development). -/
def charLower (c : Char) : Char :=
  if 'A' ≤ c ∧ c ≤ 'Z' then Char.ofNat (c.toNat + 32) else c

/-- ASCII lower-casing of a character list. -/
def lowerChars (l : List Char) : List Char := l.map charLower

/-- Drop leading whitespace. -/
def skipWs : List Char → List Char
  | [] => []
  | c :: cs => if isWsChar c then skipWs cs else c :: cs

/-- Trim whitespace from both ends (models `String.prototype.trim` on ASCII). -/
def trimChars (l : List Char) : List Char :=
  ((skipWs l).reverse |> skipWs).reverse

/-- Substring test: does `pat` occur contiguously inside the second list?
Models `String.prototype.includes`. -/
def containsSub (pat : List Char) : List Char → Bool
  | [] => pat.isEmpty
  | c :: rest => pat.isPrefixOf (c :: rest) || containsSub pat rest

/-! ### JSON values -/

/-- JSON values (JS objects as produced by `JSON.parse`).  Object fields are
kept in insertion order, as JS does for string keys. -/
inductive JVal : Type where
  | jnull : JVal
  | jbool : Bool → JVal
  | jnum  : Int → JVal
  | jstr  : String → JVal
  | jarr  : List JVal → JVal
  | jobj  : List (String × JVal) → JVal
  deriving Repr

mutual

/-- Boolean equality on `JVal`. -/
def jbeq : JVal → JVal → Bool
  | .jnull, .jnull => true
  | .jbool a, .jbool b => a == b
  | .jnum a, .jnum b => a == b
  | .jstr a, .jstr b => a == b
  | .jarr a, .jarr b => jbeqArr a b
  | .jobj a, .jobj b => jbeqObj a b
  | _, _ => false

/-- Boolean equality on JSON arrays. -/
def jbeqArr : List JVal → List JVal → Bool
  | [], [] => true
  | a :: as, b :: bs => jbeq a b && jbeqArr as bs
  | _, _ => false

/-- Boolean equality on JSON object field lists. -/
def jbeqObj : List (String × JVal) → List (String × JVal) → Bool
  | [], [] => true
  | (k, v) :: as, (k2, v2) :: bs => k == k2 && jbeq v v2 && jbeqObj as bs
  | _, _ => false

end

mutual

theorem jbeq_iff : ∀ a b, jbeq a b = true ↔ a = b
  | .jnull, b => by cases b <;> simp [jbeq]
  | .jbool a, b => by cases b <;> simp [jbeq]
  | .jnum a, b => by cases b <;> simp [jbeq]
  | .jstr a, b => by cases b <;> simp [jbeq]
  | .jarr a, b => by
      cases b <;> simp [jbeq]
      exact jbeqArr_iff a _
  | .jobj a, b => by
      cases b <;> simp [jbeq]
      exact jbeqObj_iff a _

theorem jbeqArr_iff : ∀ a b, jbeqArr a b = true ↔ a = b
  | [], b => by cases b <;> simp [jbeqArr]
  | a :: as, [] => by simp [jbeqArr]
  | a :: as, b :: bs => by
      simp [jbeqArr, jbeq_iff a b, jbeqArr_iff as bs]

theorem jbeqObj_iff : ∀ a b, jbeqObj a b = true ↔ a = b
  | [], b => by cases b <;> simp [jbeqObj]
  | (k, v) :: as, [] => by simp [jbeqObj]
  | (k, v) :: as, (k2, v2) :: bs => by
      simp [jbeqObj, jbeq_iff v v2, jbeqObj_iff as bs]

end

instance : DecidableEq JVal := fun a b => decidable_of_iff _ (jbeq_iff a b)

/-! ### JS value helpers (truthiness, property access) -/

/-- JS truthiness of a JSON value. -/
def jtruthy : JVal → Bool
  | .jnull => false
  | .jbool b => b
  | .jnum n => n ≠ 0
  | .jstr s => s ≠ ""
  | .jarr _ => true
  | .jobj _ => true

/-- JS truthiness of a possibly-`undefined` value (`none` = `undefined`). -/
def jtruthyO : Option JVal → Bool
  | some v => jtruthy v
  | none => false

/-- Field lookup on an object field list, first match (`undefined` = `none`). -/
def jsGetF : List (String × JVal) → String → Option JVal
  | [], _ => none
  | (k1, v1) :: rest, k => if k1 = k then some v1 else jsGetF rest k

/-- JS property access `v[k]`: only objects have (relevant) string-keyed
properties; arrays start with none, and property access on primitives yields
`undefined` for the keys used in this code base. -/
def jsGet (v : JVal) (k : String) : Option JVal :=
  match v with
  | .jobj fs => jsGetF fs k
  | _ => none

/-- Set a field: in-place update if the key exists (JS keeps the original
insertion position; keys of a JS object are unique, so updating the first
occurrence is exact), otherwise append. -/
def jsSetF : List (String × JVal) → String → JVal → List (String × JVal)
  | [], k, v => [(k, v)]
  | (k1, v1) :: rest, k, v =>
    if k1 = k then (k, v) :: rest else (k1, v1) :: jsSetF rest k v

/-- Delete a field (models the `delete` operator). -/
def jsDelF (fs : List (String × JVal)) (k : String) : List (String × JVal) :=
  fs.filter (fun p => p.1 ≠ k)

/-- Property assignment `v[k] = x`.  On arrays JS attaches a named property
that is invisible to `JSON.stringify` and to every consumer of `tool_input`
in this code base; the model drops it.  No theorem below depends on that
branch.  On primitives JS silently discards the assignment. -/
def jsSetProp (v : JVal) (k : String) (x : JVal) : JVal :=
  match v with
  | .jobj fs => .jobj (jsSetF fs k x)
  | other => other

/-- The JS `typeof v === "object"` test (`null` and arrays included). -/
def typeofObject : JVal → Bool
  | .jobj _ => true
  | .jarr _ => true
  | .jnull => true
  | _ => false

/-- Is the value a string? -/
def isStr : JVal → Bool
  | .jstr _ => true
  | _ => false

/-! ### Serializer (models `JSON.stringify`) -/

/-- Lower-case hexadecimal digit. -/
def hexDigitChar (n : Nat) : Char :=
  if n < 10 then Char.ofNat (48 + n) else Char.ofNat (87 + n)

/-- Escape one character as `JSON.stringify` does. -/
def escapeChar (c : Char) : List Char :=
  if c = dquote then [bslash, dquote]
  else if c = bslash then [bslash, bslash]
  else if c = '\n' then [bslash, 'n']
  else if c = '\t' then [bslash, 't']
  else if c = '\x0d' then [bslash, 'r']
  else if c.toNat = 8 then [bslash, 'b']
  else if c.toNat = 12 then [bslash, 'f']
  else if c.toNat < 32 then
    [bslash, 'u', '0', '0', hexDigitChar (c.toNat / 16), hexDigitChar (c.toNat % 16)]
  else [c]

/-- Escape a whole character list. -/
def escChars : List Char → List Char
  | [] => []
  | c :: cs => escapeChar c ++ escChars cs

/-- Decimal digit character. -/
def digitChar (n : Nat) : Char := Char.ofNat (48 + n)

/-- Standard decimal digits of a natural number (most significant first);
the fuel is structural only and `n + 1` always suffices. -/
def natDigitsAux : Nat → Nat → List Char
  | 0, _ => []
  | fuel + 1, n => if n < 10 then [digitChar n] else natDigitsAux fuel (n / 10) ++ [digitChar (n % 10)]

/-- Decimal digits of a natural number. -/
def natDigits (n : Nat) : List Char := natDigitsAux (n + 1) n

/-- The characters `JSON.stringify` emits for an integer. -/
def intChars (n : Int) : List Char :=
  if n < 0 then '-' :: natDigits n.natAbs else natDigits n.toNat

mutual

/-- Serialize a JSON value to characters (compact form, as
`JSON.stringify(v)` with no spacing argument). -/
def serChars : JVal → List Char
  | .jnull => "null".toList
  | .jbool true => "true".toList
  | .jbool false => "false".toList
  | .jnum n => intChars n
  | .jstr s => dquote :: escChars s.toList ++ [dquote]
  | .jarr xs => lbrack :: serArr xs ++ [rbrack]
  | .jobj fs => lbrace :: serObj fs ++ [rbrace]

/-- Serialize array elements, comma-separated. -/
def serArr : List JVal → List Char
  | [] => []
  | [x] => serChars x
  | x :: y :: xs => serChars x ++ ',' :: serArr (y :: xs)

/-- Serialize object members, comma-separated. -/
def serObj : List (String × JVal) → List Char
  | [] => []
  | [(k, v)] => dquote :: escChars k.toList ++ dquote :: ':' :: serChars v
  | (k, v) :: f :: fs =>
      (dquote :: escChars k.toList ++ dquote :: ':' :: serChars v) ++ ',' :: serObj (f :: fs)

end

/-- `JSON.stringify` on the model. -/
def jsonSerialize (v : JVal) : String := String.mk (serChars v)

/-! ### Parser (models `JSON.parse`) -/

/-- Hexadecimal digit value. -/
def parseHexDigit (c : Char) : Option Nat :=
  if '0' ≤ c ∧ c ≤ '9' then some (c.toNat - 48)
  else if 'a' ≤ c ∧ c ≤ 'f' then some (c.toNat - 87)
  else if 'A' ≤ c ∧ c ≤ 'F' then some (c.toNat - 55)
  else none

/-- Parse the body of a JSON string after the opening quote.  Returns the
decoded characters and the input remaining after the closing quote. -/
def parseStrBody : Nat → List Char → Option (List Char × List Char)
  | 0, _ => none
  | _ + 1, [] => none
  | fuel + 1, c :: rest =>
    if c = dquote then some ([], rest)
    else if c = bslash then
      match rest with
      | [] => none
      | e :: rest2 =>
        if e = dquote then (parseStrBody fuel rest2).map (fun p => (dquote :: p.1, p.2))
        else if e = bslash then (parseStrBody fuel rest2).map (fun p => (bslash :: p.1, p.2))
        else if e = '/' then (parseStrBody fuel rest2).map (fun p => ('/' :: p.1, p.2))
        else if e = 'n' then (parseStrBody fuel rest2).map (fun p => ('\n' :: p.1, p.2))
        else if e = 't' then (parseStrBody fuel rest2).map (fun p => ('\t' :: p.1, p.2))
        else if e = 'r' then (parseStrBody fuel rest2).map (fun p => ('\x0d' :: p.1, p.2))
        else if e = 'b' then (parseStrBody fuel rest2).map (fun p => (Char.ofNat 8 :: p.1, p.2))
        else if e = 'f' then (parseStrBody fuel rest2).map (fun p => (Char.ofNat 12 :: p.1, p.2))
        else if e = 'u' then
          match rest2 with
          | h1 :: h2 :: h3 :: h4 :: rest3 =>
            match parseHexDigit h1, parseHexDigit h2, parseHexDigit h3, parseHexDigit h4 with
            | some a, some b, some c2, some d =>
              (parseStrBody fuel rest3).map
                (fun p => (Char.ofNat (((a * 16 + b) * 16 + c2) * 16 + d) :: p.1, p.2))
            | _, _, _, _ => none
          | _ => none
        else none
    else if c.toNat < 32 then none
    else (parseStrBody fuel rest).map (fun p => (c :: p.1, p.2))

/-- Digit list to number. -/
def digitsVal (l : List Char) : Nat :=
  l.foldl (fun a c => a * 10 + (c.toNat - 48)) 0

/-- Parse a JSON integer literal (fractions and exponents are outside the
modelled fragment and rejected). -/
def parseNumber (cs : List Char) : Option (Int × List Char) :=
  let (neg, cs1) :=
    match cs with
    | c :: rest => if c = '-' then (true, rest) else (false, cs)
    | [] => (false, ([] : List Char))
  let digits := cs1.takeWhile isDigitChar
  let rest := cs1.drop digits.length
  if digits.isEmpty then none
  else if digits.length > 1 ∧ digits.head? = some '0' then none
  else
    let cont :=
      match rest with
      | c :: _ => c = '.' || c = 'e' || c = 'E'
      | [] => false
    if cont then none
    else
      let n : Int := (digitsVal digits : Nat)
      some (if neg then -n else n, rest)

/-- Insert a member into an object being parsed: JS keeps the first insertion
position of a key but the last assigned value. -/
def insertMember (fs : List (String × JVal)) (k : String) (v : JVal) : List (String × JVal) :=
  jsSetF fs k v

mutual

/-- Parse one JSON value (leading whitespace allowed). -/
def parseVal : Nat → List Char → Option (JVal × List Char)
  | 0, _ => none
  | fuel + 1, cs =>
    match skipWs cs with
    | [] => none
    | c :: rest =>
      if c = dquote then
        (parseStrBody fuel rest).map (fun p => (JVal.jstr (String.mk p.1), p.2))
      else if c = lbrace then parseObjBody fuel rest
      else if c = lbrack then parseArrBody fuel rest
      else if c = '-' || isDigitChar c then
        (parseNumber (c :: rest)).map (fun p => (JVal.jnum p.1, p.2))
      else if "null".toList.isPrefixOf (c :: rest) then
        some (JVal.jnull, (c :: rest).drop 4)
      else if "true".toList.isPrefixOf (c :: rest) then
        some (JVal.jbool true, (c :: rest).drop 4)
      else if "false".toList.isPrefixOf (c :: rest) then
        some (JVal.jbool false, (c :: rest).drop 5)
      else none
termination_by structural fuel cs => fuel

/-- Parse the inside of an object, after the opening brace. -/
def parseObjBody : Nat → List Char → Option (JVal × List Char)
  | 0, _ => none
  | fuel + 1, cs =>
    match skipWs cs with
    | [] => none
    | c :: rest =>
      if c = rbrace then some (JVal.jobj [], rest)
      else parseMembers fuel (c :: rest) []
termination_by structural fuel cs => fuel

/-- Parse one or more `"key": value` members followed by `}`. -/
def parseMembers : Nat → List Char → List (String × JVal) → Option (JVal × List Char)
  | 0, _, _ => none
  | fuel + 1, cs, acc =>
    match skipWs cs with
    | [] => none
    | c :: rest =>
      if c = dquote then
        match parseStrBody fuel rest with
        | none => none
        | some (kcs, rest2) =>
          match skipWs rest2 with
          | [] => none
          | c2 :: rest3 =>
            if c2 = ':' then
              match parseVal fuel rest3 with
              | none => none
              | some (v, rest4) =>
                let acc2 := insertMember acc (String.mk kcs) v
                match skipWs rest4 with
                | [] => none
                | c3 :: rest5 =>
                  if c3 = ',' then parseMembers fuel rest5 acc2
                  else if c3 = rbrace then some (JVal.jobj acc2, rest5)
                  else none
            else none
      else none
termination_by structural fuel cs acc => fuel

/-- Parse the inside of an array, after the opening bracket. -/
def parseArrBody : Nat → List Char → Option (JVal × List Char)
  | 0, _ => none
  | fuel + 1, cs =>
    match skipWs cs with
    | [] => none
    | c :: rest =>
      if c = rbrack then some (JVal.jarr [], rest)
      else parseElems fuel (c :: rest) []
termination_by structural fuel cs => fuel

/-- Parse one or more array elements followed by `]`. -/
def parseElems : Nat → List Char → List JVal → Option (JVal × List Char)
  | 0, _, _ => none
  | fuel + 1, cs, acc =>
    match parseVal fuel cs with
    | none => none
    | some (v, rest) =>
      match skipWs rest with
      | [] => none
      | c :: rest2 =>
        if c = ',' then parseElems fuel rest2 (acc ++ [v])
        else if c = rbrack then some (JVal.jarr (acc ++ [v]), rest2)
        else none
termination_by structural fuel cs acc => fuel

end

/-- `JSON.parse` on the model: parse one value, allow trailing whitespace,
require the input to be exhausted.  `none` models a thrown `SyntaxError`. -/
def jsonParse (s : String) : Option JVal :=
  match parseVal (4 * (s.length + 1)) s.toList with
  | some (v, rest) => if (skipWs rest).isEmpty then some v else none
  | none => none

/-- Does a character list parse as JSON? (the trial-parse check used by the
extraction strategies). -/
def jparseOk (cs : List Char) : Bool :=
  (jsonParse (String.mk cs)).isSome

/-! ### `extractJsonFromText` (src/ai/api-calls.ts)

The JS function tries five strategies in order: a fenced code block, a
brace-balanced span, a bracket-balanced span, a greedy `\{[\s\S]{10,}\}`
regex, and finally the whole text; each candidate is trial-parsed before it
is returned. -/

/-- Find the first occurrence of three consecutive backticks; return the
characters before it and the characters after it. -/
def splitAtTriple : List Char → Option (List Char × List Char)
  | [] => none
  | c :: rest =>
    if c = btick && rest.take 2 = [btick, btick] then some ([], rest.drop 2)
    else (splitAtTriple rest).map (fun p => (c :: p.1, p.2))

/-- The capture of the fence regex ```` /```(?:json)?\s*([\s\S]*?)```/ ````
when the match starts at the given position (just after the opening three
backticks): the optional `json` tag and the greedy `\s*` are deterministic
here because neither can contain a backtick, and the lazy capture ends at
the next triple backtick. -/
def fenceCapture (cs : List Char) : Option (List Char) :=
  let cs1 := if "json".toList.isPrefixOf cs then cs.drop 4 else cs
  (splitAtTriple (skipWs cs1)).map Prod.fst

/-- First successful match of the fence regex over all start positions (the
regex engine advances one character after a failed start). -/
def findFence : List Char → Option (List Char)
  | [] => none
  | c :: rest =>
    if c = btick && rest.take 2 = [btick, btick] then
      match fenceCapture (rest.drop 2) with
      | some cap => some cap
      | none => findFence rest
    else findFence rest

/-- Strategy 1: a fenced code block, trimmed, kept only if it parses. -/
def strategy1 (text : List Char) : Option String :=
  match findFence text with
  | none => none
  | some cap =>
    let candidate := trimChars cap
    if jparseOk candidate then some (String.mk candidate) else none

/-- Strategy 2 scan: `started` mirrors `startIndex !== -1`, `depth` mirrors
`braceCount`, `acc` holds (reversed) the characters since `startIndex`.
A candidate that fails to parse resets `startIndex` but not `braceCount`,
exactly as in the source. -/
def strat2Aux : Bool → Int → List Char → List Char → Option String
  | _, _, _, [] => none
  | started, depth, acc, c :: rest =>
    if c = lbrace then
      if started then strat2Aux true (depth + 1) (c :: acc) rest
      else strat2Aux true (depth + 1) [c] rest
    else if c = rbrace then
      if started then
        let acc2 := c :: acc
        if depth - 1 = 0 then
          let cand := acc2.reverse
          if jparseOk cand then some (String.mk cand)
          else strat2Aux false (depth - 1) [] rest
        else strat2Aux true (depth - 1) acc2 rest
      else strat2Aux false (depth - 1) acc rest
    else
      if started then strat2Aux true depth (c :: acc) rest
      else strat2Aux false depth acc rest

/-- Strategy 3 scan: identical to strategy 2 with square brackets. -/
def strat3Aux : Bool → Int → List Char → List Char → Option String
  | _, _, _, [] => none
  | started, depth, acc, c :: rest =>
    if c = lbrack then
      if started then strat3Aux true (depth + 1) (c :: acc) rest
      else strat3Aux true (depth + 1) [c] rest
    else if c = rbrack then
      if started then
        let acc2 := c :: acc
        if depth - 1 = 0 then
          let cand := acc2.reverse
          if jparseOk cand then some (String.mk cand)
          else strat3Aux false (depth - 1) [] rest
        else strat3Aux true (depth - 1) acc2 rest
      else strat3Aux false (depth - 1) acc rest
    else
      if started then strat3Aux true depth (c :: acc) rest
      else strat3Aux false depth acc rest

/-- Largest index `j ≥ 10` of a closing brace (the greedy `[\s\S]{10,}\}`
backtracks from the right). -/
def lastCloseBrace (l : List Char) : Option Nat :=
  (List.range l.length).foldl
    (fun acc j => if 10 ≤ j ∧ l.get? j = some rbrace then some j else acc) none

/-- The single match of `/\{[\s\S]{10,}\}/`: leftmost opening brace from
which a closing brace exists at distance at least 11, paired greedily with
the last such closing brace. -/
def strat4Find : List Char → Option (List Char)
  | [] => none
  | c :: rest =>
    if c = lbrace then
      match lastCloseBrace rest with
      | some j => some (c :: rest.take (j + 1))
      | none => strat4Find rest
    else strat4Find rest

/-- Strategy 4: the greedy brace regex, kept only if the match parses. -/
def strategy4 (text : List Char) : Option String :=
  match strat4Find text with
  | none => none
  | some cand => if jparseOk cand then some (String.mk cand) else none

/-- Model of `extractJsonFromText`: try the five strategies in order; every
non-`none` result has survived a trial parse. -/
def extractJsonFromText (text : String) : Option String :=
  let cs := text.toList
  match strategy1 cs with
  | some r => some r
  | none =>
  match strat2Aux false 0 [] cs with
  | some r => some r
  | none =>
  match strat3Aux false 0 [] cs with
  | some r => some r
  | none =>
  match strategy4 cs with
  | some r => some r
  | none => if (jsonParse text).isSome then some text else none

/-! ### `repairDecisionObject` (src/ai/api-calls.ts) -/

/-- The closed action enum, in source order. -/
def validActions : List String :=
  ["read_files", "search_repo", "write_patch", "run_cmd", "evaluate_work", "create_plan",
   "analyze_project", "validate_form_json", "generate_expression", "generate_translations",
   "generate_form_json", "final_answer"]

/-- Top-level fields hoisted into `tool_input`, in source order. -/
def toolInputFields : List String :=
  ["paths", "query", "patch", "command", "evaluation",
   "formGenerationRequest", "expressionRequest", "translationRequest",
   "formJson", "schemaPath", "scan_directories", "plan_steps", "project_context"]

/-- Is an optional value a string? -/
def isStrO : Option JVal → Bool
  | some (.jstr _) => true
  | _ => false

/-- `repaired.tool_input?.k || repaired.k` — the presence test used by the
action-inference chain. -/
def hasParam (fs : List (String × JVal)) (k : String) : Bool :=
  jtruthyO ((jsGetF fs "tool_input").bind (fun ti => jsGet ti k)) || jtruthyO (jsGetF fs k)

/-- The action-inference chain of `repairDecisionObject`, in source order. -/
def inferAction (fs : List (String × JVal)) : String :=
  if hasParam fs "paths" then "read_files"
  else if hasParam fs "query" then "search_repo"
  else if hasParam fs "formGenerationRequest" then "generate_form_json"
  else if hasParam fs "expressionRequest" then "generate_expression"
  else if hasParam fs "translationRequest" then "generate_translations"
  else if hasParam fs "formJson" then "validate_form_json"
  else if hasParam fs "scan_directories" then "analyze_project"
  else if hasParam fs "plan_steps" then "create_plan"
  else if hasParam fs "command" then "run_cmd"
  else if hasParam fs "patch" then "write_patch"
  else if hasParam fs "evaluation" then "evaluate_work"
  else "final_answer"

/-- `action.toLowerCase().trim()`. -/
def lowerTrim (s : String) : String :=
  String.mk (trimChars (lowerChars s.toList))

/-- Is an optional value of `typeof === "object"`? -/
def typeofObjectO : Option JVal → Bool
  | some v => typeofObject v
  | none => false

/-- One iteration of the hoisting loop: move a known top-level field into
`tool_input` when `tool_input` does not already define it. -/
def moveField (fs : List (String × JVal)) (f : String) : List (String × JVal) :=
  match jsGetF fs f with
  | none => fs
  | some v =>
    let ti := (jsGetF fs "tool_input").getD (.jobj [])
    match jsGet ti f with
    | some _ => fs
    | none => jsDelF (jsSetF fs "tool_input" (jsSetProp ti f v)) f

/-- First block of `repairDecisionObject`: infer `action` when it is
missing, falsy or not a string. -/
def inferActionStep (fs : List (String × JVal)) : List (String × JVal) :=
  if !(jtruthyO (jsGetF fs "action") && isStrO (jsGetF fs "action")) then
    jsSetF fs "action" (.jstr (inferAction fs))
  else fs

/-- Second block: lower-case/trim the action, kept only when the
normalization lands in the valid action set. -/
def normalizeActionStep (r1 : List (String × JVal)) : List (String × JVal) :=
  match jsGetF r1 "action" with
  | some (.jstr s) =>
    if s ≠ "" then
      if validActions.contains (lowerTrim s) then jsSetF r1 "action" (.jstr (lowerTrim s))
      else r1
    else r1
  | _ => r1

/-- Third block: reset a truthy non-object `tool_input` to an empty object. -/
def resetToolInputStep (r2 : List (String × JVal)) : List (String × JVal) :=
  if jtruthyO (jsGetF r2 "tool_input") && !typeofObjectO (jsGetF r2 "tool_input") then
    jsSetF r2 "tool_input" (.jobj [])
  else r2

/-- Fourth block: ensure `tool_input` is present and truthy. -/
def ensureToolInputStep (r3 : List (String × JVal)) : List (String × JVal) :=
  if !(jtruthyO (jsGetF r3 "tool_input")) then jsSetF r3 "tool_input" (.jobj []) else r3

/-- The body of `repairDecisionObject` for a non-array object input: the
four normalization blocks in source order, then the hoisting loop. -/
def repairDecisionFields (fs : List (String × JVal)) : List (String × JVal) :=
  toolInputFields.foldl moveField
    (ensureToolInputStep (resetToolInputStep (normalizeActionStep (inferActionStep fs))))

/-- Model of `repairDecisionObject`: non-objects, `null` and arrays are
returned unchanged by the guard. -/
def repairDecisionObject (data : JVal) : JVal :=
  match data with
  | .jobj fs => .jobj (repairDecisionFields fs)
  | other => other

/-! ### `repairPlanSteps` (src/ai/api-calls.ts) -/

/-- Dash characters accepted by the priority-prefix regex `[—–-]`. -/
def isDashChar (c : Char) : Bool :=
  c = '-' || c = Char.ofNat 0x2014 || c = Char.ofNat 0x2013

/-- Strip a case-insensitive `Required:`/`Optional:` label followed by
optional whitespace from the front of the list (`none` if absent). -/
def stripLabelColon (l : List Char) : Option (List Char) :=
  let low := lowerChars l
  let afterWord :=
    if "required".toList.isPrefixOf low then some (l.drop 8)
    else if "optional".toList.isPrefixOf low then some (l.drop 8)
    else none
  match afterWord with
  | none => none
  | some r =>
    match r with
    | c :: r2 => if c = ':' then some (r2.drop (r2.takeWhile isWsChar).length) else none
    | [] => none

/-- `stepText.replace(/^S\d+\s*[—–-]\s*(Required|Optional):\s*/i, "")
.replace(/^(Required|Optional):\s*/i, "").trim()`. -/
def cleanStepText (l : List Char) : List Char :=
  let afterR1 :=
    match l with
    | c :: rest =>
      if c = 'S' || c = 's' then
        let ds := rest.takeWhile isDigitChar
        if ds.isEmpty then none
        else
          let r1 := rest.drop ds.length
          let r2 := r1.drop (r1.takeWhile isWsChar).length
          match r2 with
          | d :: r3 =>
            if isDashChar d then stripLabelColon (r3.drop (r3.takeWhile isWsChar).length)
            else none
          | [] => none
      else none
    | [] => none
  let l2 := afterR1.getD l
  let l3 := (stripLabelColon l2).getD l2
  trimChars l3

/-- One step of the `steps.map` inside `repairPlanSteps`.  `none` models the
`TypeError` JS throws either when the element itself is `null` (the
callback's first line reads `step.dependencies`, and property access on
`null` throws) or when `step.step` is a truthy non-string (the code then
calls `.replace` on a non-string value).  Property access on the other
primitives (numbers, strings, booleans, arrays) does not throw in JS; it
yields `undefined`, modelled by `jsGet` returning `none`. -/
def repairStep (step : JVal) : Option JVal :=
  if step = JVal.jnull then none
  else
  let deps :=
    match jsGet step "dependencies" with
    | some (.jarr ds) => JVal.jarr ds
    | _ => JVal.jarr []
  let rawStep := jsGet step "step"
  let stepTextO : Option String :=
    if jtruthyO rawStep then
      match rawStep with
      | some (.jstr s) => some s
      | _ => none
    else some ""
  match stepTextO with
  | none => none
  | some stepText =>
    let cleaned := cleanStepText stepText.toList
    let stepOut := if cleaned.isEmpty then stepText else String.mk cleaned
    match jsGet step "required" with
    | none =>
      let low := lowerChars stepText.toList
      let isRequired := containsSub "required".toList low && !(containsSub "optional".toList low)
      let isOptional := containsSub "optional".toList low
      some (.jobj [("step", .jstr stepOut), ("required", .jbool (isRequired || !isOptional)),
                   ("dependencies", deps)])
    | some .jnull =>
      let low := lowerChars stepText.toList
      let isRequired := containsSub "required".toList low && !(containsSub "optional".toList low)
      let isOptional := containsSub "optional".toList low
      some (.jobj [("step", .jstr stepOut), ("required", .jbool (isRequired || !isOptional)),
                   ("dependencies", deps)])
    | some req =>
      some (.jobj [("step", .jstr stepOut), ("required", req), ("dependencies", deps)])

/-- `steps.map(…)` with a thrown exception propagating as `none`. -/
def mapRepairSteps : List JVal → Option (List JVal)
  | [] => some []
  | st :: rest =>
    match repairStep st, mapRepairSteps rest with
    | some v, some vs => some (v :: vs)
    | _, _ => none

/-- Model of `repairPlanSteps`.  `none` models a thrown `TypeError`; inputs
without a `steps` array are returned unchanged. -/
def repairPlanSteps (data : JVal) : Option JVal :=
  match data with
  | .jobj fs =>
    match jsGetF fs "steps" with
    | some (.jarr steps) =>
      match mapRepairSteps steps with
      | some steps2 => some (.jobj (jsSetF fs "steps" (.jarr steps2)))
      | none => none
    | _ => some data
  | _ => some data

/-! ### `repairMalformedJSON` (src/ai/api-calls.ts)

Branch A: the text parses; if `tool_input` is a truthy string containing
XML-parameter markup, lift it into a real object and re-stringify.
Branch B: the text does not parse; run a chain of textual repairs (escaped
XML-parameter patterns, quote unescaping, trailing commas, unquoted keys). -/

/-- Match of `/\n<parameter\s+name="([^"]+)">([^<]+)(?:<\/parameter>)?/` at
the head of the list.  Every quantifier boundary is forced by the adjacent
literal characters, so the regex is deterministic. -/
def xmlParamAt (l : List Char) : Option (String × String) :=
  match l with
  | c0 :: rest =>
    if c0 = '\n' ∧ "<parameter".toList.isPrefixOf rest then
      let r1 := rest.drop 10
      let ws := r1.takeWhile isWsChar
      if ws.isEmpty then none
      else
        let r2 := r1.drop ws.length
        if "name=".toList.isPrefixOf r2 then
          let r3 := r2.drop 5
          match r3 with
          | q :: r4 =>
            if q = dquote then
              let nm := r4.takeWhile (fun c => c ≠ dquote)
              let r5 := r4.drop nm.length
              if nm.isEmpty then none
              else
                match r5 with
                | _ :: gt :: r7 =>
                  if gt = '>' then
                    let vl := (gt :: r7).drop 1 |>.takeWhile (fun c => c ≠ '<')
                    if vl.isEmpty then none else some (String.mk nm, String.mk vl)
                  else none
                | _ => none
            else none
          | [] => none
        else none
    else none
  | [] => none

/-- First match of the XML-parameter regex over all start positions. -/
def xmlParamSearch : List Char → Option (String × String)
  | [] => none
  | c :: rest =>
    match xmlParamAt (c :: rest) with
    | some r => some r
    | none => xmlParamSearch rest

/-- Match of `/<([^>]+)>([^<]+)<\/[^>]+>/` at the head of the list, returning
tag, value and the remaining input after the match. -/
def xmlTagAt (l : List Char) : Option (String × String × List Char) :=
  match l with
  | c0 :: r1 =>
    if c0 = '<' then
      let t := r1.takeWhile (fun c => c ≠ '>')
      let r2 := r1.drop t.length
      if t.isEmpty then none
      else
        match r2 with
        | _ :: r3 =>
          let v := r3.takeWhile (fun c => c ≠ '<')
          let r4 := r3.drop v.length
          if v.isEmpty then none
          else if "</".toList.isPrefixOf r4 then
            let r5 := r4.drop 2
            let ct := r5.takeWhile (fun c => c ≠ '>')
            let r6 := r5.drop ct.length
            if ct.isEmpty then none
            else
              match r6 with
              | _ :: r7 => some (String.mk t, String.mk v, r7)
              | [] => none
          else none
        | [] => none
    else none
  | [] => none

/-- All matches of the global XML-tag regex (the engine resumes after each
match, or one character further after a failed position). -/
def xmlTagScan : Nat → List Char → List (String × String)
  | 0, _ => []
  | _ + 1, [] => []
  | fuel + 1, c :: rest =>
    match xmlTagAt (c :: rest) with
    | some (t, v, after) => (t, v) :: xmlTagScan fuel after
    | none => xmlTagScan fuel rest

/-- Branch A of `repairMalformedJSON`: when the parsed value carries a truthy
string `tool_input` containing XML markup, rewrite it and return the
re-stringified object (`none` means: fall through and return `text`). -/
def repairParsedToolInput (parsed : JVal) : Option String :=
  match jsGet parsed "tool_input" with
  | some (.jstr s) =>
    if s ≠ "" then
      match xmlParamSearch s.toList with
      | some (nm, vl) =>
        let value := match jsonParse vl with | some v => v | none => .jstr vl
        some (jsonSerialize (jsSetProp parsed "tool_input" (.jobj [(nm, value)])))
      | none =>
        let tags := xmlTagScan (s.toList.length + 1) s.toList
        if tags.isEmpty then none
        else
          let obj := tags.foldl (fun acc p =>
            insertMember acc p.1 (match jsonParse p.2 with | some pv => pv | none => .jstr p.2)) []
          some (jsonSerialize (jsSetProp parsed "tool_input" (.jobj obj)))
    else none
  | _ => none

/-- Largest index of a double quote in the list (for the greedy backtracking
of `([^<]+)` before an optional closing tag). -/
def lastQuoteIdx (l : List Char) : Option Nat :=
  (List.range l.length).foldl
    (fun acc j => if l.get? j = some dquote then some j else acc) none

/-- Match of the escaped-source regex
`/"tool_input":\s*"\\n<parameter\s+name=\\"([^"]+)\\">([^<]+)(?:<\/parameter>)?"/`
at the head of the list; returns name, value and the rest after the match. -/
def matchXmlParamEscAt (l : List Char) : Option (String × String × List Char) :=
  if "\"tool_input\":".toList.isPrefixOf l then
    let r1 := l.drop 13
    let r2 := r1.drop (r1.takeWhile isWsChar).length
    match r2 with
    | q :: r3 =>
      if q = dquote ∧ (bslash :: 'n' :: "<parameter".toList).isPrefixOf r3 then
        let r4 := r3.drop 12
        let ws := r4.takeWhile isWsChar
        if ws.isEmpty then none
        else
          let r5 := r4.drop ws.length
          if ("name=".toList ++ [bslash, dquote]).isPrefixOf r5 then
            let r6 := r5.drop 7
            -- `([^"]+)\\">`: the run up to the next quote must end in a
            -- backslash and be at least two characters long
            let run := r6.takeWhile (fun c => c ≠ dquote)
            let r7 := r6.drop run.length
            if run.length < 2 ∨ run.getLast? ≠ some bslash then none
            else
              match r7 with
              | _ :: gt :: r8 =>
                if gt = '>' then
                  -- `([^<]+)(?:<\/parameter>)?"`: greedy value run
                  let run2 := r8.takeWhile (fun c => c ≠ '<')
                  let r9 := r8.drop run2.length
                  if run2.isEmpty then none
                  else if ("</parameter>".toList ++ [dquote]).isPrefixOf r9 then
                    some (String.mk (run.dropLast), String.mk run2, r9.drop 13)
                  else
                    match lastQuoteIdx run2 with
                    | some k =>
                      if 1 ≤ k then
                        some (String.mk (run.dropLast), String.mk (run2.take k),
                              run2.drop (k + 1) ++ r9)
                      else none
                    | none => none
                else none
              | _ => none
          else none
      else none
    | [] => none
  else none

/-- Global replace for the escaped XML-parameter regex; the replacement is
`"tool_input": ` followed by the stringified one-field object. -/
def replaceXmlParamEsc : Nat → List Char → List Char
  | 0, l => l
  | _ + 1, [] => []
  | fuel + 1, c :: rest =>
    match matchXmlParamEscAt (c :: rest) with
    | some (nm, vl, after) =>
      let value := match jsonParse vl with | some v => v | none => .jstr vl
      "\"tool_input\": ".toList ++ serChars (.jobj [(nm, value)]) ++ replaceXmlParamEsc fuel after
    | none => c :: replaceXmlParamEsc fuel rest

/-- Match of `/"tool_input":\s*"\\n<([^>]+)>([^<]+)<\/[^>]+>"/` at the head
of the list; returns tag, value and the rest after the match. -/
def matchXmlValueEscAt (l : List Char) : Option (String × String × List Char) :=
  if "\"tool_input\":".toList.isPrefixOf l then
    let r1 := l.drop 13
    let r2 := r1.drop (r1.takeWhile isWsChar).length
    match r2 with
    | q :: r3 =>
      if q = dquote ∧ [bslash, 'n', '<'].isPrefixOf r3 then
        let r4 := r3.drop 3
        let t := r4.takeWhile (fun c => c ≠ '>')
        let r5 := r4.drop t.length
        if t.isEmpty then none
        else
          match r5 with
          | _ :: r6 =>
            let v := r6.takeWhile (fun c => c ≠ '<')
            let r7 := r6.drop v.length
            if v.isEmpty then none
            else if "</".toList.isPrefixOf r7 then
              let r8 := r7.drop 2
              let ct := r8.takeWhile (fun c => c ≠ '>')
              let r9 := r8.drop ct.length
              if ct.isEmpty then none
              else
                match r9 with
                | _ :: q2 :: r10 =>
                  if q2 = dquote then some (String.mk t, String.mk v, r10) else none
                | _ => none
            else none
          | [] => none
      else none
    | [] => none
  else none

/-- Global replace for the escaped XML-value regex. -/
def replaceXmlValueEsc : Nat → List Char → List Char
  | 0, l => l
  | _ + 1, [] => []
  | fuel + 1, c :: rest =>
    match matchXmlValueEscAt (c :: rest) with
    | some (t, v, after) =>
      let rep :=
        match jsonParse v with
        | some pv => serChars pv
        | none => serChars (.jobj [(t, .jstr v)])
      "\"tool_input\": ".toList ++ rep ++ replaceXmlValueEsc fuel after
    | none => c :: replaceXmlValueEsc fuel rest

/-- `repaired.replace(/\\"/g, String.fromCharCode(34))`: turn each
backslash-quote pair into a bare quote, scanning left to right. -/
def unescQ : List Char → List Char
  | [] => []
  | [c] => [c]
  | c :: c2 :: rest =>
    if c = bslash ∧ c2 = dquote then dquote :: unescQ rest
    else c :: unescQ (c2 :: rest)

/-- `repaired.replace(/,(\s*[}\]])/g, "$1")`: drop a comma directly (modulo
whitespace) before a closing brace or bracket.  The first argument buffers
the whitespace seen since a pending comma. -/
def trailC : Option (List Char) → List Char → List Char
  | none, [] => []
  | some ws, [] => ',' :: ws.reverse
  | none, c :: rest =>
    if c = ',' then trailC (some []) rest
    else c :: trailC none rest
  | some ws, c :: rest =>
    if isWsChar c then trailC (some (c :: ws)) rest
    else if c = rbrace || c = rbrack then ws.reverse ++ c :: trailC none rest
    else if c = ',' then ',' :: ws.reverse ++ trailC (some []) rest
    else ',' :: ws.reverse ++ c :: trailC none rest

/-- First character of a JS identifier (`[a-zA-Z_$]`). -/
def identStartChar (c : Char) : Bool :=
  ('a' ≤ c && c ≤ 'z') || ('A' ≤ c && c ≤ 'Z') || c = '_' || c = '$'

/-- Subsequent character of a JS identifier (`[a-zA-Z0-9_$]`). -/
def identChar (c : Char) : Bool :=
  identStartChar c || isDigitChar c

/-- Match of `([{,]\s*)([a-zA-Z_$][a-zA-Z0-9_$]*)\s*:` after a trigger
character `c`; returns the replacement `$1"$2":` and the rest after. -/
def keyMatchAt (c : Char) (rest : List Char) : Option (List Char × List Char) :=
  let ws1 := rest.takeWhile isWsChar
  let r1 := rest.drop ws1.length
  match r1 with
  | d :: _ =>
    if identStartChar d then
      let idnt := r1.takeWhile identChar
      let r2 := r1.drop idnt.length
      let r3 := r2.drop (r2.takeWhile isWsChar).length
      match r3 with
      | e :: r4 =>
        if e = ':' then some (c :: ws1 ++ dquote :: idnt ++ [dquote, ':'], r4) else none
      | [] => none
    else none
  | [] => none

/-- `repaired.replace(/([{,]\s*)([a-zA-Z_$][a-zA-Z0-9_$]*)\s*:/g, ...)`:
quote unquoted object keys. -/
def replaceUnquotedKeys : Nat → List Char → List Char
  | 0, l => l
  | _ + 1, [] => []
  | fuel + 1, c :: rest =>
    if c = lbrace || c = ',' then
      match keyMatchAt c rest with
      | some (em, after) => em ++ replaceUnquotedKeys fuel after
      | none => c :: replaceUnquotedKeys fuel rest
    else c :: replaceUnquotedKeys fuel rest

/-- Model of `repairMalformedJSON`. -/
def repairMalformedJSON (text : String) : String :=
  match jsonParse text with
  | some parsed =>
    match repairParsedToolInput parsed with
    | some out => out
    | none => text
  | none =>
    let l0 := text.toList
    let l1 := replaceXmlParamEsc (l0.length + 1) l0
    let l2 := replaceXmlValueEsc (l1.length + 1) l1
    let l3 := unescQ l2
    let l4 := trailC none l3
    let l5 := replaceUnquotedKeys (l4.length + 1) l4
    String.mk l5

/-! ### Decision validation and defaulting (src/agent.ts) -/

/-- `validActions.includes(parsed.action)`: strict equality means only a
string member of the enum passes. -/
def actValidCheck : Option JVal → Bool
  | some (.jstr s) => validActions.contains s
  | _ => false

/-- Model of `validateDecision`: `null` becomes `none`.  The first guard is
`!parsed || typeof parsed !== "object"`, so `null` fails by falsiness and
arrays pass `typeof` but then have no `action` property. -/
def validateDecision (parsed : JVal) : Option JVal :=
  if !(jtruthy parsed && typeofObject parsed) then none
  else if !(jtruthyO (jsGet parsed "action") && actValidCheck (jsGet parsed "action")) then none
  else if jsGet parsed "action" ≠ some (.jstr "final_answer") ∧
      !(jtruthyO (jsGet parsed "tool_input")) then none
  else some parsed

/-- The terminal decision substituted by `runCodingAgent` on parse or
validation failure. -/
def finishDecision (rationale : String) : JVal :=
  .jobj [("action", .jstr "final_answer"), ("rationale", .jstr rationale)]

/-- The decision extracted from a `properties` wrapper:
`{action: p.action, tool_input: p.tool_input || {}, rationale: p.rationale}`.
A JS object literal whose `rationale` is `undefined` keeps the key with value
`undefined`; nothing downstream distinguishes that from an absent key, so the
model omits it. -/
def extractedFromProperties (props : JVal) : JVal :=
  let tiRaw := jsGet props "tool_input"
  let ti := if jtruthyO tiRaw then tiRaw.getD (.jobj []) else .jobj []
  let base := [("action", (jsGet props "action").getD .jnull), ("tool_input", ti)]
  match jsGet props "rationale" with
  | some r => .jobj (base ++ [("rationale", r)])
  | none => .jobj base

/-- The decision-decoding layer of `runCodingAgent` (parse the raw content,
unwrap a `properties` nesting, validate, and default to `final_answer`).
Total by construction: the JS try/catch around `JSON.parse` and the `null`
checks are modelled by the `Option` branches. -/
def decodeDecision (raw : String) : JVal :=
  match jsonParse raw with
  | none => finishDecision "JSON parsing error occurred"
  | some parsed =>
    if jtruthyO ((jsGet parsed "properties").bind (fun p => jsGet p "action")) then
      let props := (jsGet parsed "properties").getD .jnull
      match validateDecision (extractedFromProperties props) with
      | some d => d
      | none => finishDecision "Invalid decision structure in properties"
    else
      match validateDecision parsed with
      | some d => d
      | none => finishDecision "Invalid decision structure"

/-! ### Transcript truncation (`makeAICall`, src/ai/api-calls.ts) -/

/-- A chat message. -/
structure ChatMsg where
  role : String
  content : String
  deriving Repr, DecidableEq

/-- The truncation step of `makeAICall`: when truncation is enabled and the
transcript exceeds 20 messages, keep message 0 (system), message 1 (user
goal) and the last 15 messages (`messages.slice(-15)`). -/
def truncateMessages (truncate : Bool) (messages : List ChatMsg) : List ChatMsg :=
  if truncate ∧ messages.length > 20 then
    messages.take 2 ++ messages.drop (messages.length - 15)
  else messages

/-! ### Planning-phase complexity heuristic (`runCodingAgent`, src/agent.ts) -/

/-- `userGoal.toLowerCase()` (ASCII model). -/
def lowerStr (s : String) : String := String.mk (lowerChars s.toList)

/-- `String.prototype.includes`. -/
def strIncludes (s pat : String) : Bool := containsSub pat.toList s.toList

/-- The `isComplexTask` heuristic: goal length over 30, or one of the fixed
task keywords occurring in the lower-cased goal. -/
def isComplexTask (userGoal : String) : Bool :=
  userGoal.length > 30 ||
  strIncludes (lowerStr userGoal) "implement" ||
  strIncludes (lowerStr userGoal) "create" ||
  strIncludes (lowerStr userGoal) "build" ||
  strIncludes (lowerStr userGoal) "add" ||
  strIncludes (lowerStr userGoal) "update" ||
  strIncludes (lowerStr userGoal) "modify" ||
  strIncludes (lowerStr userGoal) "change" ||
  strIncludes (lowerStr userGoal) "fix" ||
  strIncludes (lowerStr userGoal) "refactor" ||
  strIncludes (lowerStr userGoal) "improve" ||
  strIncludes (lowerStr userGoal) "feature" ||
  strIncludes (lowerStr userGoal) "functionality"

/-- The planning phase of `runCodingAgent`: the `analyze_project` handler is
always invoked first, and the `create_plan` handler exactly when the
complexity heuristic holds. -/
def planningActions (userGoal : String) : List String :=
  ["analyze_project"] ++ (if isComplexTask userGoal then ["create_plan"] else [])

/-! ### Capped tool handlers (src/handlers/file-handlers.ts,
src/handlers/command-handlers.ts)

The external tools (`write_patch`, `run_cmd`) and the validator registry are
I/O collaborators; they enter the model as oracle arguments (`toolResult`,
`validationMsgs`).  Each handler returns the updated transcript and counter. -/

/-- Resource caps of a run. -/
structure Caps where
  maxWrites : Nat
  maxCmds : Nat
  deriving Repr, DecidableEq

/-- `out.files_written > 0` for the numeric result of `write_patch`. -/
def filesWrittenPos (out : JVal) : Bool :=
  match jsGet out "files_written" with
  | some (.jnum n) => 0 < n
  | _ => false

/-- Model of `handleWritePatch`.  `toolResult` is the value the external
`write_patch` tool would return; `validationMsgs` abstracts the transcript
entries the external validator registry appends for one written file.
Because `write_patch` returns `files_written` as a number, the
`Array.isArray` branch yields `[]` and the validation loop is empty; the
model keeps the structure nonetheless. -/
def handleWritePatch (toolResult : JVal) (validationMsgs : JVal → List ChatMsg)
    (decision : JVal) (transcript : List ChatMsg) (writes : Nat) (caps : Caps) :
    List ChatMsg × Nat :=
  if jsGet decision "action" ≠ some (.jstr "write_patch") then (transcript, writes)
  else if writes ≥ caps.maxWrites then
    (transcript ++ [⟨"assistant", "write_patch:ERROR: write cap exceeded"⟩], writes)
  else
    let writtenFiles : List JVal :=
      if jtruthyO (jsGet toolResult "success") ∧ filesWrittenPos toolResult then
        match jsGet toolResult "files_written" with
        | some (.jarr fsw) => fsw
        | _ => []
      else []
    let valEntries := writtenFiles.foldl (fun acc f => acc ++ validationMsgs f) []
    (transcript ++ valEntries ++
       [⟨"assistant", "write_patch:" ++ jsonSerialize toolResult⟩], writes + 1)

/-- `JSON.stringify` of `{cmd, args, ...out}` in `handleRunCmd`; keys with
`undefined` values are dropped by `JSON.stringify`. -/
def runCmdEntry (cmd : Option JVal) (args : JVal) (out : JVal) : String :=
  let base := (match cmd with | some c => [("cmd", c)] | none => []) ++ [("args", args)]
  let merged :=
    match out with
    | .jobj fs => fs.foldl (fun acc p => jsSetF acc p.1 p.2) base
    | _ => base
  jsonSerialize (.jobj merged)

/-- Model of `handleRunCmd`.  `toolResult` is the value the external
`run_cmd` tool would return. -/
def handleRunCmd (toolResult : JVal) (decision : JVal) (transcript : List ChatMsg)
    (cmds : Nat) (caps : Caps) (testCmd : String × Option (List String)) :
    List ChatMsg × Nat :=
  if jsGet decision "action" ≠ some (.jstr "run_cmd") then (transcript, cmds)
  else if cmds ≥ caps.maxCmds then
    (transcript ++ [⟨"assistant", "run_cmd:ERROR: command cap exceeded"⟩], cmds)
  else
    let ti := (jsGet decision "tool_input").getD .jnull
    let cmd := jsGet ti "cmd"
    let args := (jsGet ti "args").getD (.jarr [])
    let transcript2 :=
      transcript ++ [⟨"assistant", "run_cmd:" ++ runCmdEntry cmd args toolResult⟩]
    let testPassed :=
      cmd = some (.jstr testCmd.1) ∧
      some (jsonSerialize args) =
        (testCmd.2.map (fun l => jsonSerialize (.jarr (l.map JVal.jstr)))) ∧
      jtruthyO (jsGet toolResult "ok")
    let transcript3 :=
      if testPassed then transcript2 ++ [⟨"assistant", "Tests passed."⟩] else transcript2
    (transcript3, cmds + 1)

/-! ### Predicates used to state the amended claims -/

/-- Does the value have an array-valued `steps` property? -/
def hasStepsArr (d : JVal) : Bool :=
  match jsGet d "steps" with
  | some (.jarr _) => true
  | _ => false

/-- Is the value a plain (non-array, non-null) object? -/
def isJObj : JVal → Bool
  | .jobj _ => true
  | _ => false

/-- The steps element is not `null` and its `step` field is falsy or a
string — exactly the condition under which the map callback of
`repairPlanSteps` cannot throw for this element (property access on `null`
throws, and `.replace` on a truthy non-string throws). -/
def stepTextOk (step : JVal) : Bool :=
  !(decide (step = JVal.jnull)) &&
    (!(jtruthyO (jsGet step "step")) || isStrO (jsGet step "step"))

/-- After optional whitespace, does the list start with a closing brace or
bracket? (the `\s*[}\]]` tail of the trailing-comma regex). -/
def closerNext (l : List Char) : Bool :=
  match skipWs l with
  | d :: _ => d = rbrace || d = rbrack
  | [] => false

/-- Does the trailing-comma regex `,(\s*[}\]])` match anywhere? -/
def hasTrailPattern : List Char → Bool
  | [] => false
  | c :: rest => (c = ',' && closerNext rest) || hasTrailPattern rest

/-- Does the unquoted-key regex match anywhere? -/
def hasKeyPattern : List Char → Bool
  | [] => false
  | c :: rest => ((c = lbrace || c = ',') && (keyMatchAt c rest).isSome) || hasKeyPattern rest

/-- Is an optional value an array? -/
def isArrO : Option JVal → Bool
  | some (.jarr _) => true
  | _ => false

/-! ### Predicates and helpers for the extraction-correctness analysis (C6) -/

/-- Contribution of one character to the running brace count of strategy 2. -/
def bstep (c : Char) : Int := if c = lbrace then 1 else if c = rbrace then -1 else 0

/-- Net brace balance of a character list (number of opening minus closing
braces), in the sense of the strategy-2 scan, which counts every brace. -/
def braceBal : List Char → Int
  | [] => 0
  | c :: l => bstep c + braceBal l

/-- Minimum of the brace balance over all prefixes of the list. -/
def minBal : List Char → Int
  | [] => 0
  | c :: l => min 0 (bstep c + minBal l)

/-- A character that is neither a brace nor a backtick: such characters are
invisible both to the fence regex of strategy 1 and to the brace count of
strategy 2. -/
def plainChar (c : Char) : Bool := (c != lbrace) && (c != rbrace) && (c != btick)

/-- A list free of braces and backticks. -/
def noBB (l : List Char) : Bool := l.all plainChar

/-- A list free of braces. -/
def braceFree (l : List Char) : Bool := l.all (fun c => (c != lbrace) && (c != rbrace))

/-- A list free of backticks. -/
def btickFree (l : List Char) : Bool := l.all (fun c => c != btick)

mutual

/-- No string literal (key or value) anywhere inside the value contains a
brace or a backtick: braces in the serialization are then all structural. -/
def jnoBB : JVal → Bool
  | .jnull => true
  | .jbool _ => true
  | .jnum _ => true
  | .jstr s => noBB s.toList
  | .jarr xs => jnoBBArr xs
  | .jobj fs => jnoBBObj fs

/-- `jnoBB` on every element of an array. -/
def jnoBBArr : List JVal → Bool
  | [] => true
  | x :: xs => jnoBB x && jnoBBArr xs

/-- `jnoBB` on every key and value of an object member list. -/
def jnoBBObj : List (String × JVal) → Bool
  | [] => true
  | (k, v) :: fs => noBB k.toList && jnoBB v && jnoBBObj fs

end

/-- The string is not a key of the member list. -/
def notKey (k : String) : List (String × JVal) → Bool
  | [] => true
  | (k2, _) :: fs => (k2 != k) && notKey k fs

mutual

/-- Well-formed value: every object in it has pairwise distinct keys (as
`JSON.stringify` output always satisfies, and as is needed for parsing to
reproduce the member list exactly). -/
def jwf : JVal → Bool
  | .jnull => true
  | .jbool _ => true
  | .jnum _ => true
  | .jstr _ => true
  | .jarr xs => jwfArr xs
  | .jobj fs => jwfObj fs

/-- `jwf` on every element of an array. -/
def jwfArr : List JVal → Bool
  | [] => true
  | x :: xs => jwf x && jwfArr xs

/-- Distinct keys and well-formed values in a member list. -/
def jwfObj : List (String × JVal) → Bool
  | [] => true
  | (k, v) :: fs => notKey k fs && jwf v && jwfObj fs

end

/-- The characters that may legitimately follow a serialized value in a
larger serialization (or the end of input): comma, closing brace, closing
bracket.  None of them continues a number literal. -/
def sepOk : List Char → Bool
  | [] => true
  | c :: _ => (c = ',') || (c = rbrace) || (c = rbrack)

/-- Every key of the second member list is absent from the first. -/
def allFresh (acc : List (String × JVal)) : List (String × JVal) → Bool
  | [] => true
  | (k, _) :: ms => notKey k acc && allFresh acc ms

/-- The three facts about a serialization fragment that drive the strategy-1
and strategy-2 analyses: no backticks, zero net brace balance, and no prefix
with negative brace balance. -/
def serOkC (l : List Char) : Prop :=
  btickFree l = true ∧ braceBal l = 0 ∧ minBal l = 0

/-- A JSON payload wrapped in a ```` ```json ```` fenced code block with
surrounding prose. -/
def fenceWrap (p1 body p2 : List Char) : List Char :=
  p1 ++ btick :: btick :: btick :: 'j' :: 's' :: 'o' :: 'n' :: '\n' ::
    (body ++ '\n' :: btick :: btick :: btick :: p2)

/-! ## Theorems for the claims -/

/-- Claim C2: with the corresponding counter at (or beyond) its cap,
dispatching one more `write_patch` (resp. `run_cmd`) action appends exactly
the cap-exceeded error notice, leaves the counter unchanged, and does not
invoke the underlying tool: the outcome is independent of the tool and
validator oracles. -/
theorem C2_cap_enforcement
    (decisionW decisionC : JVal) (transcript : List ChatMsg) (caps : Caps)
    (writes cmds : Nat) (tr tr2 : JVal) (vm vm2 : JVal → List ChatMsg)
    (testCmd : String × Option (List String))
    (hdw : jsGet decisionW "action" = some (.jstr "write_patch"))
    (hdc : jsGet decisionC "action" = some (.jstr "run_cmd"))
    (hw : caps.maxWrites ≤ writes) (hc : caps.maxCmds ≤ cmds) :
    handleWritePatch tr vm decisionW transcript writes caps =
      (transcript ++ [⟨"assistant", "write_patch:ERROR: write cap exceeded"⟩], writes) ∧
    handleWritePatch tr vm decisionW transcript writes caps =
      handleWritePatch tr2 vm2 decisionW transcript writes caps ∧
    handleRunCmd tr decisionC transcript cmds caps testCmd =
      (transcript ++ [⟨"assistant", "run_cmd:ERROR: command cap exceeded"⟩], cmds) ∧
    handleRunCmd tr decisionC transcript cmds caps testCmd =
      handleRunCmd tr2 decisionC transcript cmds caps testCmd := by
  unfold handleWritePatch handleRunCmd
  rw [hdw, hdc]
  simp [hw, hc]

/-- Witness for C2 at a concrete state already at both caps. -/
theorem C2_witness :
    handleWritePatch (JVal.jobj []) (fun _ => [])
        (JVal.jobj [("action", JVal.jstr "write_patch")]) [] 10 ⟨10, 20⟩ =
      ([⟨"assistant", "write_patch:ERROR: write cap exceeded"⟩], 10) ∧
    handleRunCmd (JVal.jobj [])
        (JVal.jobj [("action", JVal.jstr "run_cmd")]) [] 20 ⟨10, 20⟩ ("npm", some ["test"]) =
      ([⟨"assistant", "run_cmd:ERROR: command cap exceeded"⟩], 20) := by
  have h := C2_cap_enforcement
    (JVal.jobj [("action", JVal.jstr "write_patch")])
    (JVal.jobj [("action", JVal.jstr "run_cmd")]) [] ⟨10, 20⟩ 10 20
    (JVal.jobj []) (JVal.jobj []) (fun _ => []) (fun _ => []) ("npm", some ["test"])
    (by decide) (by decide) (by decide) (by decide)
  exact ⟨h.1, h.2.2.1⟩

/-- Claim C3: with truncation enabled, a transcript of more than 20 messages
is reduced to exactly 17 messages — the first two and the last 15 of the
original — while shorter transcripts pass through unchanged. -/
theorem C3_truncation (messages : List ChatMsg) :
    (messages.length > 20 →
      (truncateMessages true messages).length = 17 ∧
      (truncateMessages true messages).take 2 = messages.take 2 ∧
      (truncateMessages true messages).drop 2 = messages.drop (messages.length - 15)) ∧
    (messages.length ≤ 20 → truncateMessages true messages = messages) := by
  constructor
  · intro h
    have h2 : (messages.take 2).length = 2 := by
      rw [List.length_take]; omega
    unfold truncateMessages
    rw [if_pos ⟨rfl, h⟩]
    refine ⟨?_, ?_, ?_⟩
    · rw [List.length_append, List.length_take, List.length_drop]; omega
    · rw [List.take_append_eq_append_take, List.take_take]
      simp [h2]
    · rw [List.drop_append_eq_append_drop, h2]
      simp
  · intro h
    unfold truncateMessages
    rw [if_neg]
    rintro ⟨-, h2⟩
    omega

/-- A concrete 21-message transcript. -/
def msgs21 : List ChatMsg := (List.range 21).map (fun i => ⟨"user", toString i⟩)

/-- Witness for C3 at a concrete 21-message transcript (and at a short one). -/
theorem C3_witness :
    ((truncateMessages true msgs21).length = 17 ∧
      (truncateMessages true msgs21).take 2 = msgs21.take 2 ∧
      (truncateMessages true msgs21).drop 2 = msgs21.drop (msgs21.length - 15)) ∧
    truncateMessages true [⟨"user", "hi"⟩] = [⟨"user", "hi"⟩] :=
  ⟨(C3_truncation msgs21).1 (by decide), (C3_truncation [⟨"user", "hi"⟩]).2 (by decide)⟩

/-- Claim C4 counterexample: the write counter is incremented even when the
underlying tool reports failure.  `write_patch` returns
`{success: false, files_written: 0, error: …}` when no blocks are
recognized, yet `handleWritePatch` still moves the counter from 0 to 1
(src/handlers/file-handlers.ts increments unconditionally after the tool
call); likewise `handleRunCmd` counts a command whose result has
`ok: false`.  This falsifies "if the underlying tool reports failure … the
counter stays unchanged". -/
theorem C4_counterexample :
    (handleWritePatch
      (JVal.jobj [("success", JVal.jbool false), ("files_written", JVal.jnum 0),
                  ("error", JVal.jstr "No recognized full-file blocks")])
      (fun _ => [])
      (JVal.jobj [("action", JVal.jstr "write_patch"),
                  ("tool_input", JVal.jobj [("patch", JVal.jstr "x")])])
      [] 0 ⟨10, 20⟩).2 = 1 ∧
    (handleRunCmd
      (JVal.jobj [("ok", JVal.jbool false), ("code", JVal.jnum 1),
                  ("stdout", JVal.jstr ""), ("stderr", JVal.jstr "boom")])
      (JVal.jobj [("action", JVal.jstr "run_cmd"),
                  ("tool_input", JVal.jobj [("cmd", JVal.jstr "npm")])])
      [] 0 ⟨10, 20⟩ ("npm", some ["test"])).2 = 1 := by
  constructor <;> decide

/-- Claim C4 (amended): under the cap, each dispatched `write_patch` /
`run_cmd` action increments its counter by exactly one regardless of the
success or failure reported by the tool, and in every branch the counters
are monotonically non-decreasing. -/
theorem C4_amended (toolResult toolResultC : JVal) (vm : JVal → List ChatMsg)
    (decisionW decisionC : JVal) (transcript : List ChatMsg) (writes cmds : Nat)
    (caps : Caps) (testCmd : String × Option (List String))
    (hdw : jsGet decisionW "action" = some (.jstr "write_patch"))
    (hdc : jsGet decisionC "action" = some (.jstr "run_cmd"))
    (hw : writes < caps.maxWrites) (hc : cmds < caps.maxCmds) :
    (handleWritePatch toolResult vm decisionW transcript writes caps).2 = writes + 1 ∧
    (handleRunCmd toolResultC decisionC transcript cmds caps testCmd).2 = cmds + 1 ∧
    (∀ (tr d : JVal) (t : List ChatMsg) (w : Nat) (cp : Caps),
       w ≤ (handleWritePatch tr vm d t w cp).2) ∧
    (∀ (tr d : JVal) (t : List ChatMsg) (cm : Nat) (cp : Caps)
       (tc : String × Option (List String)), cm ≤ (handleRunCmd tr d t cm cp tc).2) := by
  refine ⟨?_, ?_, ?_, ?_⟩
  · unfold handleWritePatch
    rw [hdw]
    simp [Nat.not_le.mpr hw]
  · unfold handleRunCmd
    rw [hdc]
    simp [Nat.not_le.mpr hc]
  · intro tr d t w cp
    unfold handleWritePatch
    split
    · exact le_refl w
    · split
      · exact le_refl w
      · exact Nat.le_succ w
  · intro tr d t cm cp tc
    unfold handleRunCmd
    split
    · exact le_refl cm
    · split
      · exact le_refl cm
      · exact Nat.le_succ cm

/-- Witness for C4 (amended) at a concrete under-cap state with a successful
write result and a failing command result. -/
theorem C4_witness :
    (handleWritePatch
      (JVal.jobj [("success", JVal.jbool true), ("files_written", JVal.jnum 1),
                  ("message", JVal.jstr "Successfully wrote 1 file(s): a.ts")])
      (fun _ => [])
      (JVal.jobj [("action", JVal.jstr "write_patch"),
                  ("tool_input", JVal.jobj [("patch", JVal.jstr "x")])])
      [] 3 ⟨10, 20⟩).2 = 4 ∧
    (handleRunCmd
      (JVal.jobj [("ok", JVal.jbool false), ("code", JVal.jnum 1),
                  ("stdout", JVal.jstr ""), ("stderr", JVal.jstr "boom")])
      (JVal.jobj [("action", JVal.jstr "run_cmd"),
                  ("tool_input", JVal.jobj [("cmd", JVal.jstr "ls")])])
      [] 7 ⟨10, 20⟩ ("npm", some ["test"])).2 = 8 := by
  have h := C4_amended
    (JVal.jobj [("success", JVal.jbool true), ("files_written", JVal.jnum 1),
                ("message", JVal.jstr "Successfully wrote 1 file(s): a.ts")])
    (JVal.jobj [("ok", JVal.jbool false), ("code", JVal.jnum 1),
                ("stdout", JVal.jstr ""), ("stderr", JVal.jstr "boom")])
    (fun _ => [])
    (JVal.jobj [("action", JVal.jstr "write_patch"),
                ("tool_input", JVal.jobj [("patch", JVal.jstr "x")])])
    (JVal.jobj [("action", JVal.jstr "run_cmd"),
                ("tool_input", JVal.jobj [("cmd", JVal.jstr "ls")])])
    [] 3 7 ⟨10, 20⟩ ("npm", some ["test"])
    (by decide) (by decide) (by decide) (by decide)
  exact ⟨h.1, h.2.1⟩

/-- Claim C5 counterexample: the goal `"Create a simple HTML page"` contains
the task keyword `create`, so the complexity heuristic of `runCodingAgent`
evaluates to `true` — not `false` as claimed — and the planning phase does
invoke the `create_plan` handler. -/
theorem C5_counterexample :
    isComplexTask "Create a simple HTML page" = true ∧
    planningActions "Create a simple HTML page" ≠ ["analyze_project"] := by
  constructor <;> decide

/-- Claim C5 (amended): for the goal `"Create a simple HTML page"` the
complexity heuristic evaluates to `true` (the lower-cased goal contains the
keyword `create`, although its length 25 is under the 30-character
threshold), so the planning phase performs the mandatory `analyze_project`
action and then plan synthesis via `create_plan`. -/
theorem C5_amended :
    planningActions "Create a simple HTML page" = ["analyze_project", "create_plan"] ∧
    strIncludes (lowerStr "Create a simple HTML page") "create" = true ∧
    "Create a simple HTML page".length = 25 := by
  refine ⟨by decide, by decide, by decide⟩

/-- A validated decision is the input object itself, and it carries an
`action` field holding a string of the closed action enum. -/
theorem validateDecision_some {p d : JVal} (h : validateDecision p = some d) :
    d = p ∧ ∃ s, jsGet p "action" = some (JVal.jstr s) ∧ validActions.contains s = true := by
  unfold validateDecision at h
  split at h
  · exact absurd h (by simp)
  · split at h
    · exact absurd h (by simp)
    · split at h
      · exact absurd h (by simp)
      · rename_i h1 h2 h3
        injection h with hd
        refine ⟨hd.symm, ?_⟩
        have h2' : (jtruthyO (jsGet p "action") && actValidCheck (jsGet p "action")) = true := by
          simpa using h2
        cases hja : jsGet p "action" with
        | none => rw [hja] at h2'; simp [actValidCheck] at h2'
        | some a =>
          cases a with
          | jstr s =>
            rw [hja] at h2'
            simp [actValidCheck] at h2'
            exact ⟨s, rfl, by simpa using h2'.2⟩
          | jnull => rw [hja] at h2'; simp [actValidCheck] at h2'
          | jbool b => rw [hja] at h2'; simp [actValidCheck] at h2'
          | jnum n => rw [hja] at h2'; simp [actValidCheck] at h2'
          | jarr xs => rw [hja] at h2'; simp [actValidCheck] at h2'
          | jobj fs => rw [hja] at h2'; simp [actValidCheck] at h2'

/-- Unfolding of `decodeDecision` once the raw content has parsed. -/
theorem decodeDecision_parsed {raw : String} {v : JVal} (hp : jsonParse raw = some v) :
    decodeDecision raw =
      (if jtruthyO ((jsGet v "properties").bind (fun p => jsGet p "action")) then
        match validateDecision (extractedFromProperties ((jsGet v "properties").getD .jnull)) with
        | some d => d
        | none => finishDecision "Invalid decision structure in properties"
      else
        match validateDecision v with
        | some d => d
        | none => finishDecision "Invalid decision structure") := by
  unfold decodeDecision
  rw [hp]

/-- The substituted terminal decision always has action `final_answer`. -/
theorem finishDecision_action (r : String) :
    jsGet (finishDecision r) "action" = some (JVal.jstr "final_answer") := by
  simp [finishDecision, jsGet, jsGetF, List.find?]

/-- Claim C1 counterexample: the input object
`{properties: {action: "search_repo", tool_input: {query: "foo"}}}` has no
top-level `action` at all (so it "lacks a valid action"), yet the decision
layer of `runCodingAgent` unwraps the `properties` nesting and yields a
`search_repo` decision — not the terminal `final_answer` decision the claim
requires for every such input. -/
theorem C1_counterexample :
    jsonParse (jsonSerialize (JVal.jobj [("properties", JVal.jobj
        [("action", JVal.jstr "search_repo"),
         ("tool_input", JVal.jobj [("query", JVal.jstr "foo")])])])) =
      some (JVal.jobj [("properties", JVal.jobj
        [("action", JVal.jstr "search_repo"),
         ("tool_input", JVal.jobj [("query", JVal.jstr "foo")])])]) ∧
    jsGet (JVal.jobj [("properties", JVal.jobj
        [("action", JVal.jstr "search_repo"),
         ("tool_input", JVal.jobj [("query", JVal.jstr "foo")])])]) "action" = none ∧
    jsGet (decodeDecision (jsonSerialize (JVal.jobj [("properties", JVal.jobj
        [("action", JVal.jstr "search_repo"),
         ("tool_input", JVal.jobj [("query", JVal.jstr "foo")])])]))) "action" =
      some (JVal.jstr "search_repo") ∧
    "search_repo" ≠ "final_answer" := by
  refine ⟨by decide, by decide, by decide, by decide⟩

/-- Claim C1 (amended): the decision layer is total and never yields null —
every decoded decision carries an action from the closed enum — and it
yields the terminal `final_answer` decision whenever the raw content fails
to parse as JSON, and whenever the parsed object, after the
`properties`-unwrap the code performs, fails validation (in particular when
it lacks a valid action). -/
theorem C1_amended (raw : String) :
    (∃ s, jsGet (decodeDecision raw) "action" = some (JVal.jstr s) ∧
       validActions.contains s = true) ∧
    (jsonParse raw = none → decodeDecision raw = finishDecision "JSON parsing error occurred") ∧
    (∀ v, jsonParse raw = some v →
      jtruthyO ((jsGet v "properties").bind (fun p => jsGet p "action")) = false →
      validateDecision v = none →
      decodeDecision raw = finishDecision "Invalid decision structure") ∧
    (∀ v, jsonParse raw = some v →
      jtruthyO ((jsGet v "properties").bind (fun p => jsGet p "action")) = true →
      validateDecision (extractedFromProperties ((jsGet v "properties").getD .jnull)) = none →
      decodeDecision raw = finishDecision "Invalid decision structure in properties") := by
  refine ⟨?_, ?_, ?_, ?_⟩
  · cases hp : jsonParse raw with
    | none =>
      have : decodeDecision raw = finishDecision "JSON parsing error occurred" := by
        unfold decodeDecision; rw [hp]
      rw [this]
      exact ⟨"final_answer", finishDecision_action _, by decide⟩
    | some v =>
      rw [decodeDecision_parsed hp]
      by_cases hprops : jtruthyO ((jsGet v "properties").bind (fun p => jsGet p "action")) = true
      · rw [if_pos hprops]
        cases hv : validateDecision (extractedFromProperties ((jsGet v "properties").getD .jnull)) with
        | none => exact ⟨"final_answer", finishDecision_action _, by decide⟩
        | some d =>
          obtain ⟨hd, s, hs, hvalid⟩ := validateDecision_some hv
          exact ⟨s, by rw [hd, hs], hvalid⟩
      · rw [if_neg hprops]
        cases hv : validateDecision v with
        | none => exact ⟨"final_answer", finishDecision_action _, by decide⟩
        | some d =>
          obtain ⟨hd, s, hs, hvalid⟩ := validateDecision_some hv
          exact ⟨s, by rw [hd, hs], hvalid⟩
  · intro hp
    unfold decodeDecision
    rw [hp]
  · intro v hp hprops hv
    rw [decodeDecision_parsed hp, if_neg (by rw [hprops]; exact Bool.false_ne_true), hv]
  · intro v hp hprops hv
    rw [decodeDecision_parsed hp, if_pos hprops, hv]

/-- Witness for C1 (amended): unparseable content and a parseable object
without a valid action both decode to the terminal decision. -/
theorem C1_witness :
    decodeDecision "oops, no json" = finishDecision "JSON parsing error occurred" ∧
    decodeDecision "\x7b\"foo\": 1\x7d" = finishDecision "Invalid decision structure" :=
  ⟨(C1_amended "oops, no json").2.1 (by decide),
   (C1_amended "\x7b\"foo\": 1\x7d").2.2.1 (JVal.jobj [("foo", JVal.jnum 1)])
     (by decide) (by decide) (by decide)⟩

/-! ### Identity lemmas for the textual repair chain -/

/-- `skipWs` consumes a whitespace head. -/
theorem skipWs_cons_ws {c : Char} {l : List Char} (h : isWsChar c = true) :
    skipWs (c :: l) = skipWs l := by
  show (if isWsChar c = true then skipWs l else c :: l) = skipWs l
  rw [if_pos h]

/-- `skipWs` stops at a non-whitespace head. -/
theorem skipWs_cons_not {c : Char} {l : List Char} (h : isWsChar c = false) :
    skipWs (c :: l) = c :: l := by
  show (if isWsChar c = true then skipWs l else c :: l) = c :: l
  rw [if_neg (by rw [h]; exact Bool.false_ne_true)]

/-- Splitting a failed substring search at a cons cell. -/
theorem containsSub_cons_false {pat : List Char} {c : Char} {rest : List Char}
    (h : containsSub pat (c :: rest) = false) :
    pat.isPrefixOf (c :: rest) = false ∧ containsSub pat rest = false := by
  unfold containsSub at h
  exact ⟨by rcases Bool.or_eq_false_iff.mp h with ⟨h1, h2⟩; exact h1,
         by rcases Bool.or_eq_false_iff.mp h with ⟨h1, h2⟩; exact h2⟩

/-- The escaped XML-parameter matcher needs the `"tool_input":` literal. -/
theorem matchXmlParamEscAt_none {l : List Char}
    (h : ("\"tool_input\":".toList).isPrefixOf l = false) :
    matchXmlParamEscAt l = none := by
  unfold matchXmlParamEscAt
  rw [if_neg]
  rw [h]
  exact Bool.false_ne_true

/-- The escaped XML-value matcher needs the `"tool_input":` literal. -/
theorem matchXmlValueEscAt_none {l : List Char}
    (h : ("\"tool_input\":".toList).isPrefixOf l = false) :
    matchXmlValueEscAt l = none := by
  unfold matchXmlValueEscAt
  rw [if_neg]
  rw [h]
  exact Bool.false_ne_true

/-- Without the `"tool_input":` literal the XML-parameter replace is the
identity. -/
theorem replaceXmlParamEsc_id :
    ∀ (fuel : Nat) (l : List Char), containsSub ("\"tool_input\":".toList) l = false →
      replaceXmlParamEsc fuel l = l := by
  intro fuel
  induction fuel with
  | zero => intro l _; rfl
  | succ f ih =>
    intro l h
    cases l with
    | nil => rfl
    | cons c rest =>
      obtain ⟨h1, h2⟩ := containsSub_cons_false h
      show (match matchXmlParamEscAt (c :: rest) with
            | some (nm, vl, after) =>
                "\"tool_input\": ".toList ++
                  serChars (.jobj [(nm, match jsonParse vl with | some v => v | none => .jstr vl)]) ++
                  replaceXmlParamEsc f after
            | none => c :: replaceXmlParamEsc f rest) = c :: rest
      rw [matchXmlParamEscAt_none h1, ih rest h2]

/-- Without the `"tool_input":` literal the XML-value replace is the
identity. -/
theorem replaceXmlValueEsc_id :
    ∀ (fuel : Nat) (l : List Char), containsSub ("\"tool_input\":".toList) l = false →
      replaceXmlValueEsc fuel l = l := by
  intro fuel
  induction fuel with
  | zero => intro l _; rfl
  | succ f ih =>
    intro l h
    cases l with
    | nil => rfl
    | cons c rest =>
      obtain ⟨h1, h2⟩ := containsSub_cons_false h
      show (match matchXmlValueEscAt (c :: rest) with
            | some (t, v, after) =>
                "\"tool_input\": ".toList ++
                  (match jsonParse v with
                   | some pv => serChars pv
                   | none => serChars (.jobj [(t, .jstr v)])) ++
                  replaceXmlValueEsc f after
            | none => c :: replaceXmlValueEsc f rest) = c :: rest
      rw [matchXmlValueEscAt_none h1, ih rest h2]

/-- Without a backslash-quote pair, quote unescaping is the identity. -/
theorem unescQ_id : ∀ l : List Char, containsSub [bslash, dquote] l = false → unescQ l = l
  | [], _ => rfl
  | [c], _ => rfl
  | c :: c2 :: rest, h => by
    obtain ⟨h1, h2⟩ := containsSub_cons_false h
    unfold unescQ
    rw [if_neg, unescQ_id (c2 :: rest) h2]
    rintro ⟨rfl, rfl⟩
    simp [List.isPrefixOf] at h1

/-- Without a match of the trailing-comma pattern, the trailing-comma scan
is the identity (both from the idle and from the pending state). -/
theorem trailC_id : ∀ l : List Char, hasTrailPattern l = false →
    (trailC none l = l ∧
     ∀ ws : List Char, closerNext l = false → trailC (some ws) l = ',' :: ws.reverse ++ l)
  | [], _ => by
    constructor
    · rfl
    · intro ws _
      show ',' :: ws.reverse = ',' :: ws.reverse ++ []
      simp
  | c :: rest, h => by
    have h' : ((decide (c = ',') && closerNext rest) || hasTrailPattern rest) = false := h
    obtain ⟨hpat, hrest⟩ := Bool.or_eq_false_iff.mp h'
    have ih := trailC_id rest hrest
    have hclrest : c = ',' → closerNext rest = false := by
      intro hc
      rcases Bool.and_eq_false_iff.mp hpat with h1 | h1
      · rw [hc] at h1; simp at h1
      · exact h1
    constructor
    · show (if c = ',' then trailC (some []) rest else c :: trailC none rest) = c :: rest
      by_cases hc : c = ','
      · subst hc
        rw [if_pos rfl]
        have := ih.2 [] (hclrest rfl)
        simpa using this
      · rw [if_neg hc, ih.1]
    · intro ws hclose
      show (if isWsChar c = true then trailC (some (c :: ws)) rest
            else if (c = rbrace || c = rbrack) = true then ws.reverse ++ c :: trailC none rest
            else if c = ',' then ',' :: ws.reverse ++ trailC (some []) rest
            else ',' :: ws.reverse ++ c :: trailC none rest) = ',' :: ws.reverse ++ c :: rest
      by_cases hw : isWsChar c = true
      · rw [if_pos hw]
        have hclose2 : closerNext rest = false := by
          unfold closerNext at hclose
          rw [skipWs_cons_ws hw] at hclose
          exact hclose
        rw [ih.2 (c :: ws) hclose2]
        simp
      · have hnotcl : (c = rbrace || c = rbrack) = false := by
          unfold closerNext at hclose
          rw [skipWs_cons_not (by simpa using hw)] at hclose
          exact hclose
        rw [if_neg hw, if_neg (by rw [hnotcl]; exact Bool.false_ne_true)]
        by_cases hc : c = ','
        · subst hc
          rw [if_pos rfl, ih.2 [] (hclrest rfl)]
          simp
        · rw [if_neg hc, ih.1]

/-- Without a match of the unquoted-key pattern, key quoting is the
identity. -/
theorem replaceUnquotedKeys_id :
    ∀ (fuel : Nat) (l : List Char), hasKeyPattern l = false →
      replaceUnquotedKeys fuel l = l := by
  intro fuel
  induction fuel with
  | zero => intro l _; rfl
  | succ f ih =>
    intro l h
    cases l with
    | nil => rfl
    | cons c rest =>
      have h' : (((decide (c = lbrace) || decide (c = ',')) && (keyMatchAt c rest).isSome) ||
          hasKeyPattern rest) = false := h
      obtain ⟨hpat, hrest⟩ := Bool.or_eq_false_iff.mp h'
      show (if c = lbrace || c = ',' then
              match keyMatchAt c rest with
              | some (em, after) => em ++ replaceUnquotedKeys f after
              | none => c :: replaceUnquotedKeys f rest
            else c :: replaceUnquotedKeys f rest) = c :: rest
      by_cases htrig : (decide (c = lbrace) || decide (c = ',')) = true
      · rw [if_pos htrig]
        have hnm : (keyMatchAt c rest).isSome = false := by
          rcases Bool.and_eq_false_iff.mp hpat with h2 | h2
          · rw [htrig] at h2; simp at h2
          · exact h2
        cases hkm : keyMatchAt c rest with
        | some p => rw [hkm] at hnm; simp at hnm
        | none => rw [ih rest hrest]
      · rw [if_neg htrig, ih rest hrest]

/-- Claim C7 counterexample: `repairSyntax` is not idempotent.  The input
consisting of backslash, backslash, quote does not parse, so the textual
chain runs; the quote-unescaping step strips one backslash per application:
the first pass yields backslash-quote, the second a bare quote. -/
theorem C7_counterexample :
    repairMalformedJSON "\\\\\"" = "\\\"" ∧
    repairMalformedJSON "\\\"" = "\"" ∧
    repairMalformedJSON (repairMalformedJSON "\\\\\"") ≠ repairMalformedJSON "\\\\\"" := by
  refine ⟨by decide, by decide, by decide⟩

/-- Claim C7 (amended): on every input that parses as JSON and does not
trigger the XML `tool_input` lift, `repairMalformedJSON` returns its input
unchanged and is therefore idempotent there; on unparseable inputs the
quote-unescaping step can strip one backslash layer per application, so
idempotence fails in general. -/
theorem C7_amended (x : String) (v : JVal) (hp : jsonParse x = some v)
    (hlift : repairParsedToolInput v = none) :
    repairMalformedJSON x = x ∧
    repairMalformedJSON (repairMalformedJSON x) = repairMalformedJSON x := by
  have h1 : repairMalformedJSON x = x := by
    unfold repairMalformedJSON
    rw [hp]
    show (match repairParsedToolInput v with
          | some out => out
          | none => x) = x
    rw [hlift]
  exact ⟨h1, by rw [h1, h1]⟩

/-- Witness for C7 (amended) at a concrete parsing input. -/
theorem C7_witness :
    repairMalformedJSON "\x7b\"a\": 1\x7d" = "\x7b\"a\": 1\x7d" ∧
    repairMalformedJSON (repairMalformedJSON "\x7b\"a\": 1\x7d") =
      repairMalformedJSON "\x7b\"a\": 1\x7d" :=
  C7_amended "\x7b\"a\": 1\x7d" (JVal.jobj [("a", JVal.jnum 1)]) (by decide) (by decide)

/-- `repairStep` cannot fail when the step text is falsy or a string. -/
theorem repairStep_isSome {st : JVal} (h : stepTextOk st = true) :
    (repairStep st).isSome = true := by
  unfold stepTextOk at h
  simp only [Bool.and_eq_true, Bool.not_eq_true', decide_eq_false_iff_not] at h
  obtain ⟨hnn, h⟩ := h
  unfold repairStep
  rw [if_neg hnn]
  by_cases ht : jtruthyO (jsGet st "step") = true
  · have hs : isStrO (jsGet st "step") = true := by
      rcases Bool.or_eq_true_iff.mp h with h' | h'
      · rw [ht] at h'; simp at h'
      · exact h'
    cases hraw : jsGet st "step" with
    | none => rw [hraw] at hs; simp [isStrO] at hs
    | some a =>
      cases a with
      | jstr s =>
        rw [hraw] at ht
        cases hreq : jsGet st "required" with
        | none => simp [hraw, ht, hreq]
        | some r => cases r <;> simp [hraw, ht, hreq]
      | jnull => rw [hraw] at hs; simp [isStrO] at hs
      | jbool b => rw [hraw] at hs; simp [isStrO] at hs
      | jnum n => rw [hraw] at hs; simp [isStrO] at hs
      | jarr xs => rw [hraw] at hs; simp [isStrO] at hs
      | jobj fs => rw [hraw] at hs; simp [isStrO] at hs
  · have ht' : jtruthyO (jsGet st "step") = false := by simpa using ht
    cases hreq : jsGet st "required" with
    | none => simp [ht', hreq]
    | some r => cases r <;> simp [ht', hreq]

/-- `mapRepairSteps` succeeds when every step has acceptable text. -/
theorem mapRepairSteps_isSome :
    ∀ steps : List JVal, (∀ st ∈ steps, stepTextOk st = true) →
      (mapRepairSteps steps).isSome = true
  | [], _ => rfl
  | st :: rest, h => by
    have h1 := repairStep_isSome (h st (by simp))
    have h2 := mapRepairSteps_isSome rest (fun s hs => h s (by simp [hs]))
    cases hst : repairStep st with
    | none => rw [hst] at h1; simp at h1
    | some v =>
      cases hrest : mapRepairSteps rest with
      | none => rw [hrest] at h2; simp at h2
      | some vs => simp [mapRepairSteps, hst, hrest]

/-- Claim C8 counterexample: `repairPlanSteps` is not total on all inputs:
for `{steps: [{step: 5}]}` the JS code evaluates `stepText.replace(...)`
with `stepText === 5` and throws a `TypeError` (modelled by `none`),
contradicting "every repair function … never throws". -/
theorem C8_counterexample :
    repairPlanSteps (JVal.jobj [("steps", JVal.jarr [JVal.jobj [("step", JVal.jnum 5)]])]) =
      none := by decide

/-- Claim C8 (amended): the repair functions are pure in the model;
`repairDecisionObject` and `repairMalformedJSON` are total, and
`repairPlanSteps` throws exactly when some element of the `steps` array is
`null` (the `step.dependencies` access throws a `TypeError`) or has a
truthy non-string `step` field (`.replace` throws a `TypeError`): it
succeeds whenever every element avoids both conditions, and a `null`
element makes it throw.  On inputs where no repair applies each function
returns its input unchanged: `repairPlanSteps` without a `steps` array,
`repairDecisionObject` on anything but a plain object, and
`repairMalformedJSON` on unparseable text containing none of its textual
repair patterns. -/
theorem C8_amended :
    (∀ d : JVal, hasStepsArr d = false → repairPlanSteps d = some d) ∧
    (∀ d : JVal, isJObj d = false → repairDecisionObject d = d) ∧
    (∀ (fs : List (String × JVal)) (steps : List JVal),
       jsGetF fs "steps" = some (.jarr steps) →
       (∀ st ∈ steps, stepTextOk st = true) →
       (repairPlanSteps (.jobj fs)).isSome = true) ∧
    (∀ t : String, jsonParse t = none →
       containsSub ("\"tool_input\":".toList) t.toList = false →
       containsSub [bslash, dquote] t.toList = false →
       hasTrailPattern t.toList = false →
       hasKeyPattern t.toList = false →
       repairMalformedJSON t = t) ∧
    repairPlanSteps (JVal.jobj [("steps", JVal.jarr [JVal.jnull])]) = none := by
  refine ⟨?_, ?_, ?_, ?_, by decide⟩
  · intro d h
    cases d with
    | jobj fs =>
      unfold hasStepsArr jsGet at h
      simp only [repairPlanSteps]
      cases hs : jsGetF fs "steps" with
      | none => simp [hs]
      | some v =>
        dsimp only at h
        rw [hs] at h
        cases v <;> simp [hs] at h ⊢
    | jnull => rfl
    | jbool b => rfl
    | jnum n => rfl
    | jstr s => rfl
    | jarr xs => rfl
  · intro d h
    cases d with
    | jobj fs => simp [isJObj] at h
    | jnull => rfl
    | jbool b => rfl
    | jnum n => rfl
    | jstr s => rfl
    | jarr xs => rfl
  · intro fs steps hs hok
    simp only [repairPlanSteps, hs]
    have hsome := mapRepairSteps_isSome steps hok
    cases hm : mapRepairSteps steps with
    | none => rw [hm] at hsome; simp at hsome
    | some vs => simp [hm]
  · intro t hp h1 h2 h3 h4
    unfold repairMalformedJSON
    rw [hp]
    dsimp only
    rw [replaceXmlParamEsc_id _ _ h1, replaceXmlValueEsc_id _ _ h1, unescQ_id _ h2,
      (trailC_id _ h3).1, replaceUnquotedKeys_id _ _ h4]
    rfl

/-- Witness for C8 (amended) at concrete inputs. -/
theorem C8_witness :
    repairPlanSteps (JVal.jobj [("goal", JVal.jstr "g")]) =
      some (JVal.jobj [("goal", JVal.jstr "g")]) ∧
    repairDecisionObject (JVal.jarr [JVal.jnum 1]) = JVal.jarr [JVal.jnum 1] ∧
    (repairPlanSteps (JVal.jobj [("steps", JVal.jarr [JVal.jobj
       [("step", JVal.jstr "Required: do"), ("required", JVal.jbool true)]])])).isSome = true ∧
    repairMalformedJSON "hello" = "hello" :=
  ⟨C8_amended.1 _ (by decide),
   C8_amended.2.1 _ (by decide),
   C8_amended.2.2.1 [("steps", JVal.jarr [JVal.jobj
      [("step", JVal.jstr "Required: do"), ("required", JVal.jbool true)]])]
     [JVal.jobj [("step", JVal.jstr "Required: do"), ("required", JVal.jbool true)]]
     (by decide) (by decide),
   C8_amended.2.2.2.1 "hello" (by decide) (by decide) (by decide) (by decide) (by decide)⟩

/-! ### Association-list lemmas for object fields -/

theorem jsGetF_setF_self : ∀ (fs : List (String × JVal)) (k : String) (v : JVal),
    jsGetF (jsSetF fs k v) k = some v
  | [], k, v => by simp [jsSetF, jsGetF]
  | (k1, v1) :: rest, k, v => by
    by_cases h : k1 = k
    · simp [jsSetF, jsGetF, h]
    · simp [jsSetF, jsGetF, h, jsGetF_setF_self rest k v]

theorem jsGetF_setF_ne : ∀ (fs : List (String × JVal)) (k k' : String) (v : JVal), k' ≠ k →
    jsGetF (jsSetF fs k v) k' = jsGetF fs k'
  | [], k, k', v, h => by simp [jsSetF, jsGetF, Ne.symm h]
  | (k1, v1) :: rest, k, k', v, h => by
    by_cases h1 : k1 = k
    · subst h1
      simp [jsSetF, jsGetF, Ne.symm h]
    · by_cases h2 : k1 = k'
      · subst h2
        simp [jsSetF, jsGetF, h1]
      · simp [jsSetF, jsGetF, h1, h2, jsGetF_setF_ne rest k k' v h]

theorem jsGetF_delF_self : ∀ (fs : List (String × JVal)) (k : String),
    jsGetF (jsDelF fs k) k = none
  | [], _ => rfl
  | (k1, v1) :: rest, k => by
    by_cases h1 : k1 = k
    · subst h1
      have hd : jsDelF ((k1, v1) :: rest) k1 = jsDelF rest k1 := by
        simp [jsDelF, List.filter_cons]
      rw [hd]
      exact jsGetF_delF_self rest k1
    · simp only [jsDelF, List.filter_cons]
      rw [if_pos (by simpa using h1)]
      simp only [jsGetF, if_neg h1]
      exact jsGetF_delF_self rest k

theorem jsGetF_delF_ne : ∀ (fs : List (String × JVal)) (k k' : String), k' ≠ k →
    jsGetF (jsDelF fs k) k' = jsGetF fs k'
  | [], k, k', h => rfl
  | (k1, v1) :: rest, k, k', h => by
    by_cases h1 : k1 = k
    · subst h1
      have hd : jsDelF ((k1, v1) :: rest) k1 = jsDelF rest k1 := by
        simp [jsDelF, List.filter_cons]
      rw [hd, jsGetF_delF_ne rest k1 k' h]
      simp [jsGetF, Ne.symm h]
    · have hd : jsDelF ((k1, v1) :: rest) k = (k1, v1) :: jsDelF rest k := by
        simp only [jsDelF, List.filter_cons]
        rw [if_pos (by simpa using h1)]
      rw [hd]
      by_cases h2 : k1 = k'
      · simp [jsGetF, h2]
      · simp [jsGetF, h2, jsGetF_delF_ne rest k k' h]

/-! ### Lemmas on `repairDecisionObject` (claim C10) -/

set_option maxHeartbeats 1600000 in
theorem inferAction_ne (fs : List (String × JVal)) : inferAction fs ≠ "" := by
  unfold inferAction
  split_ifs <;> decide

theorem validActions_mem_ne {s : String} (h : validActions.contains s = true) : s ≠ "" := by
  intro hs
  subst hs
  exact absurd h (by decide)

/-- After the inference block, `action` is a non-empty string. -/
theorem inferActionStep_action (fs : List (String × JVal)) :
    ∃ s, jsGetF (inferActionStep fs) "action" = some (.jstr s) ∧ s ≠ "" := by
  unfold inferActionStep
  by_cases h : (jtruthyO (jsGetF fs "action") && isStrO (jsGetF fs "action")) = true
  · rw [if_neg (by simp [h])]
    obtain ⟨ht, hs⟩ := Bool.and_eq_true_iff.mp h
    cases hja : jsGetF fs "action" with
    | none => rw [hja] at ht; simp [jtruthyO] at ht
    | some a =>
      cases a with
      | jstr s =>
        refine ⟨s, rfl, ?_⟩
        rw [hja] at ht
        simpa [jtruthyO, jtruthy] using ht
      | jnull => rw [hja] at hs; simp [isStrO] at hs
      | jbool b => rw [hja] at hs; simp [isStrO] at hs
      | jnum n => rw [hja] at hs; simp [isStrO] at hs
      | jarr xs => rw [hja] at hs; simp [isStrO] at hs
      | jobj g => rw [hja] at hs; simp [isStrO] at hs
  · rw [if_pos (by simp [h])]
    exact ⟨inferAction fs, jsGetF_setF_self fs "action" _, inferAction_ne fs⟩

/-- The inference block does not touch `tool_input`. -/
theorem inferActionStep_ti (fs : List (String × JVal)) :
    jsGetF (inferActionStep fs) "tool_input" = jsGetF fs "tool_input" := by
  unfold inferActionStep
  split
  · exact jsGetF_setF_ne fs "action" "tool_input" _ (by decide)
  · rfl

/-- After the normalization block, `action` is still a non-empty string. -/
theorem normalizeActionStep_action {r1 : List (String × JVal)}
    (h : ∃ s, jsGetF r1 "action" = some (.jstr s) ∧ s ≠ "") :
    ∃ s, jsGetF (normalizeActionStep r1) "action" = some (.jstr s) ∧ s ≠ "" := by
  obtain ⟨s, hs, hne⟩ := h
  unfold normalizeActionStep
  rw [hs]
  dsimp only
  rw [if_pos hne]
  by_cases hc : validActions.contains (lowerTrim s) = true
  · rw [if_pos hc]
    exact ⟨lowerTrim s, jsGetF_setF_self r1 "action" _, validActions_mem_ne hc⟩
  · rw [if_neg hc]
    exact ⟨s, hs, hne⟩

/-- The normalization block does not touch `tool_input`. -/
theorem normalizeActionStep_ti (r1 : List (String × JVal)) :
    jsGetF (normalizeActionStep r1) "tool_input" = jsGetF r1 "tool_input" := by
  unfold normalizeActionStep
  split
  · split
    · split
      · exact jsGetF_setF_ne r1 "action" "tool_input" _ (by decide)
      · rfl
    · rfl
  · rfl

/-- The two `tool_input` blocks do not touch `action`. -/
theorem toolInputSteps_action (r2 : List (String × JVal)) :
    jsGetF (ensureToolInputStep (resetToolInputStep r2)) "action" = jsGetF r2 "action" := by
  unfold ensureToolInputStep resetToolInputStep
  split
  · split
    · rw [jsGetF_setF_ne _ "tool_input" "action" _ (by decide),
        jsGetF_setF_ne _ "tool_input" "action" _ (by decide)]
    · rw [jsGetF_setF_ne _ "tool_input" "action" _ (by decide)]
  · split
    · rw [jsGetF_setF_ne _ "tool_input" "action" _ (by decide)]
    · rfl

/-- When the reset block fires, the result of both `tool_input` blocks is
the empty object. -/
theorem toolInputSteps_ti_reset {r2 : List (String × JVal)}
    (hc : (jtruthyO (jsGetF r2 "tool_input") &&
      !typeofObjectO (jsGetF r2 "tool_input")) = true) :
    jsGetF (ensureToolInputStep (resetToolInputStep r2)) "tool_input" = some (.jobj []) := by
  have h1 : resetToolInputStep r2 = jsSetF r2 "tool_input" (.jobj []) := by
    unfold resetToolInputStep
    rw [if_pos hc]
  have h2 : jsGetF (resetToolInputStep r2) "tool_input" = some (.jobj []) := by
    rw [h1, jsGetF_setF_self]
  have h3 : ensureToolInputStep (resetToolInputStep r2) = resetToolInputStep r2 := by
    unfold ensureToolInputStep
    rw [h2]
    rw [if_neg (by simp [jtruthyO, jtruthy])]
  rw [h3, h2]

/-- When the reset block is skipped and `tool_input` is falsy, the ensure
block installs the empty object. -/
theorem toolInputSteps_ti_ensure {r2 : List (String × JVal)}
    (hc : (jtruthyO (jsGetF r2 "tool_input") &&
      !typeofObjectO (jsGetF r2 "tool_input")) = false)
    (hf : jtruthyO (jsGetF r2 "tool_input") = false) :
    jsGetF (ensureToolInputStep (resetToolInputStep r2)) "tool_input" = some (.jobj []) := by
  have h1 : resetToolInputStep r2 = r2 := by
    unfold resetToolInputStep
    rw [if_neg (by rw [hc]; exact Bool.false_ne_true)]
  have h2 : ensureToolInputStep r2 = jsSetF r2 "tool_input" (.jobj []) := by
    unfold ensureToolInputStep
    rw [if_pos (by rw [hf]; rfl)]
  rw [h1, h2, jsGetF_setF_self]

/-- After the two `tool_input` blocks, `tool_input` is a plain object —
provided it was not an array to begin with. -/
theorem toolInputSteps_ti {r2 : List (String × JVal)}
    (hna : isArrO (jsGetF r2 "tool_input") = false) :
    ∃ g, jsGetF (ensureToolInputStep (resetToolInputStep r2)) "tool_input" = some (.jobj g) := by
  cases hti : jsGetF r2 "tool_input" with
  | none =>
    exact ⟨[], toolInputSteps_ti_ensure (by rw [hti]; rfl) (by rw [hti]; rfl)⟩
  | some v =>
    cases v with
    | jnull =>
      exact ⟨[], toolInputSteps_ti_ensure (by rw [hti]; rfl) (by rw [hti]; rfl)⟩
    | jobj g =>
      have h1 : resetToolInputStep r2 = r2 := by
        unfold resetToolInputStep
        rw [if_neg (by rw [hti]; simp [jtruthyO, jtruthy, typeofObjectO, typeofObject])]
      have h2 : ensureToolInputStep r2 = r2 := by
        unfold ensureToolInputStep
        rw [if_neg (by rw [hti]; simp [jtruthyO, jtruthy])]
      exact ⟨g, by rw [h1, h2, hti]⟩
    | jarr xs => rw [hti] at hna; simp [isArrO] at hna
    | jbool b =>
      cases b with
      | true =>
        exact ⟨[], toolInputSteps_ti_reset (by rw [hti]; rfl)⟩
      | false =>
        exact ⟨[], toolInputSteps_ti_ensure (by rw [hti]; rfl) (by rw [hti]; rfl)⟩
    | jnum n =>
      by_cases hn : n = 0
      · subst hn
        exact ⟨[], toolInputSteps_ti_ensure (by rw [hti]; rfl) (by rw [hti]; rfl)⟩
      · refine ⟨[], toolInputSteps_ti_reset ?_⟩
        rw [hti]
        simp [jtruthyO, jtruthy, typeofObjectO, typeofObject, hn]
    | jstr s =>
      by_cases hs : s = ""
      · subst hs
        exact ⟨[], toolInputSteps_ti_ensure (by rw [hti]; rfl) (by rw [hti]; rfl)⟩
      · refine ⟨[], toolInputSteps_ti_reset ?_⟩
        rw [hti]
        simp [jtruthyO, jtruthy, typeofObjectO, typeofObject, hs]

/-- Effect of one iteration of the hoisting loop. -/
theorem moveField_step {r g : List (String × JVal)} {f s : String}
    (hf1 : f ≠ "action") (hf2 : f ≠ "tool_input")
    (hti : jsGetF r "tool_input" = some (.jobj g))
    (hact : jsGetF r "action" = some (.jstr s)) :
    ∃ g', jsGetF (moveField r f) "tool_input" = some (.jobj g') ∧
      jsGetF (moveField r f) "action" = some (.jstr s) ∧
      (∀ k, jsGetF g k ≠ none → jsGetF g' k ≠ none) ∧
      (jsGetF (moveField r f) f = none ∨ jsGetF g' f ≠ none) ∧
      (∀ k, k ≠ "tool_input" → jsGetF r k = none → jsGetF (moveField r f) k = none) := by
  cases hrf : jsGetF r f with
  | none =>
    have hm : moveField r f = r := by unfold moveField; rw [hrf]
    rw [hm]
    exact ⟨g, hti, hact, fun k hk => hk, Or.inl hrf, fun k _ hk => hk⟩
  | some v =>
    cases htg : jsGetF g f with
    | some w =>
      have hm : moveField r f = r := by
        unfold moveField
        rw [hrf]
        dsimp only
        rw [hti]
        show (match jsGet (JVal.jobj g) f with
              | some _ => r
              | none => jsDelF (jsSetF r "tool_input" (jsSetProp (JVal.jobj g) f v)) f) = r
        rw [show jsGet (JVal.jobj g) f = some w from htg]
      rw [hm]
      refine ⟨g, hti, hact, fun k hk => hk, Or.inr (by rw [htg]; simp), fun k _ hk => hk⟩
    | none =>
      have hm : moveField r f = jsDelF (jsSetF r "tool_input" (.jobj (jsSetF g f v))) f := by
        unfold moveField
        rw [hrf]
        dsimp only
        rw [hti]
        show (match jsGet (JVal.jobj g) f with
              | some _ => r
              | none => jsDelF (jsSetF r "tool_input" (jsSetProp (JVal.jobj g) f v)) f) = _
        rw [show jsGet (JVal.jobj g) f = none from htg]
        rfl
      rw [hm]
      refine ⟨jsSetF g f v, ?_, ?_, ?_, ?_, ?_⟩
      · rw [jsGetF_delF_ne _ _ _ (Ne.symm hf2), jsGetF_setF_self]
      · rw [jsGetF_delF_ne _ _ _ (Ne.symm hf1),
          jsGetF_setF_ne _ _ _ _ (by decide), hact]
      · intro k hk
        by_cases hkf : k = f
        · subst hkf
          rw [jsGetF_setF_self]
          simp
        · rw [jsGetF_setF_ne _ _ _ _ hkf]
          exact hk
      · right
        rw [jsGetF_setF_self]
        simp
      · intro k hk1 hk2
        by_cases hkf : k = f
        · subst hkf
          rw [jsGetF_delF_self]
        · rw [jsGetF_delF_ne _ _ _ hkf, jsGetF_setF_ne _ _ _ _ hk1, hk2]

/-- Effect of the whole hoisting loop. -/
theorem fold_moveField : ∀ (flds : List String) (r g : List (String × JVal)) (s : String),
    (∀ f ∈ flds, f ≠ "action" ∧ f ≠ "tool_input") →
    jsGetF r "tool_input" = some (.jobj g) →
    jsGetF r "action" = some (.jstr s) →
    ∃ g', jsGetF (flds.foldl moveField r) "tool_input" = some (.jobj g') ∧
      jsGetF (flds.foldl moveField r) "action" = some (.jstr s) ∧
      (∀ k, jsGetF g k ≠ none → jsGetF g' k ≠ none) ∧
      (∀ k, k ≠ "tool_input" → jsGetF r k = none → jsGetF (flds.foldl moveField r) k = none) ∧
      (∀ f ∈ flds, jsGetF (flds.foldl moveField r) f = none ∨ jsGetF g' f ≠ none)
  | [], r, g, s, _, hti, hact => ⟨g, hti, hact, fun _ hk => hk, fun _ _ hk => hk, by simp⟩
  | f0 :: rest, r, g, s, hflds, hti, hact => by
    obtain ⟨g1, h1ti, h1act, h1grow, h1res, h1none⟩ :=
      moveField_step (hflds f0 (by simp)).1 (hflds f0 (by simp)).2 hti hact
    obtain ⟨g', h2ti, h2act, h2grow, h2none, h2res⟩ :=
      fold_moveField rest (moveField r f0) g1 s
        (fun f hf => hflds f (by simp [hf])) h1ti h1act
    have hfold : (f0 :: rest).foldl moveField r = rest.foldl moveField (moveField r f0) := by
      simp [List.foldl_cons]
    refine ⟨g', by rw [hfold]; exact h2ti, by rw [hfold]; exact h2act,
      fun k hk => h2grow k (h1grow k hk), ?_, ?_⟩
    · intro k hk1 hk2
      rw [hfold]
      exact h2none k hk1 (h1none k hk1 hk2)
    · intro f hf
      rw [hfold]
      rcases List.mem_cons.mp hf with hf0 | hfr
      · subst hf0
        rcases h1res with hl | hr
        · exact Or.inl (h2none f (hflds f (by simp)).2 hl)
        · exact Or.inr (h2grow f hr)
      · exact h2res f hfr

/-- Claim C10 counterexample: an array-valued `tool_input` survives
`repairDecisionObject` untouched (`typeof [] === "object"` passes the
normalization), so the repaired decision's `tool_input` is not always an
object. -/
theorem C10_counterexample :
    repairDecisionObject (JVal.jobj [("action", JVal.jstr "read_files"),
        ("tool_input", JVal.jarr [JVal.jnum 1])]) =
      JVal.jobj [("action", JVal.jstr "read_files"), ("tool_input", JVal.jarr [JVal.jnum 1])] ∧
    isJObj (JVal.jarr [JVal.jnum 1]) = false := by
  constructor <;> decide

/-- Claim C10 (amended): for every non-array object input whose `tool_input`
is not an array, `repairDecisionObject` yields an object whose `action` is a
non-empty string and whose `tool_input` is a plain object (an empty one is
attached even for `final_answer`), and every known top-level parameter field
still present at top level after the repair is one that `tool_input`
already defines (the others were moved into `tool_input`). -/
theorem C10_amended (fs : List (String × JVal))
    (hna : isArrO (jsGetF fs "tool_input") = false) :
    ∃ s g, jsGet (repairDecisionObject (.jobj fs)) "action" = some (.jstr s) ∧ s ≠ "" ∧
      jsGet (repairDecisionObject (.jobj fs)) "tool_input" = some (.jobj g) ∧
      (∀ f ∈ toolInputFields,
        jsGet (repairDecisionObject (.jobj fs)) f = none ∨ jsGetF g f ≠ none) := by
  have hr : repairDecisionObject (.jobj fs) = .jobj (repairDecisionFields fs) := rfl
  obtain ⟨s, hact1, hne⟩ := inferActionStep_action fs
  obtain ⟨s2, hact2, hne2⟩ := normalizeActionStep_action ⟨s, hact1, hne⟩
  have hact3 : jsGetF (ensureToolInputStep (resetToolInputStep
      (normalizeActionStep (inferActionStep fs)))) "action" = some (.jstr s2) := by
    rw [toolInputSteps_action]
    exact hact2
  have hna2 : isArrO (jsGetF (normalizeActionStep (inferActionStep fs)) "tool_input") = false := by
    rw [normalizeActionStep_ti, inferActionStep_ti]
    exact hna
  obtain ⟨g, hti3⟩ := toolInputSteps_ti hna2
  obtain ⟨g', hti', hact', _, _, hres⟩ :=
    fold_moveField toolInputFields _ g s2 (by decide) hti3 hact3
  refine ⟨s2, g', ?_, hne2, ?_, ?_⟩
  · rw [hr]
    exact hact'
  · rw [hr]
    exact hti'
  · intro f hf
    rw [hr]
    exact hres f hf

/-! ### Validity of extraction results (claim C9) -/

/-- Strategy 1 returns only trial-parsed candidates. -/
theorem strategy1_valid {text : List Char} {r : String} (h : strategy1 text = some r) :
    (jsonParse r).isSome = true := by
  unfold strategy1 at h
  cases hf : findFence text with
  | none => rw [hf] at h; exact absurd h (by simp)
  | some cap =>
    rw [hf] at h
    dsimp only at h
    by_cases hp : jparseOk (trimChars cap) = true
    · rw [if_pos hp] at h
      injection h with h2
      subst h2
      exact hp
    · rw [if_neg hp] at h
      exact absurd h (by simp)

/-- The strategy 2 scan returns only trial-parsed candidates. -/
theorem strat2Aux_valid : ∀ (l : List Char) (started : Bool) (depth : Int)
    (acc : List Char) (r : String),
    strat2Aux started depth acc l = some r → (jsonParse r).isSome = true
  | [], _, _, _, r => by
    intro h
    exact absurd h (by simp [strat2Aux])
  | c :: rest, started, depth, acc, r => by
    intro h
    unfold strat2Aux at h
    by_cases h1 : c = lbrace
    · rw [if_pos h1] at h
      by_cases hs : started = true
      · rw [if_pos hs] at h
        exact strat2Aux_valid rest _ _ _ r h
      · rw [if_neg hs] at h
        exact strat2Aux_valid rest _ _ _ r h
    · rw [if_neg h1] at h
      by_cases h2 : c = rbrace
      · rw [if_pos h2] at h
        by_cases hs : started = true
        · rw [if_pos hs] at h
          dsimp only at h
          by_cases hd : depth - 1 = 0
          · rw [if_pos hd] at h
            by_cases hp : jparseOk ((c :: acc).reverse) = true
            · rw [if_pos hp] at h
              injection h with h2
              subst h2
              exact hp
            · rw [if_neg hp] at h
              exact strat2Aux_valid rest _ _ _ r h
          · rw [if_neg hd] at h
            exact strat2Aux_valid rest _ _ _ r h
        · rw [if_neg hs] at h
          exact strat2Aux_valid rest _ _ _ r h
      · rw [if_neg h2] at h
        by_cases hs : started = true
        · rw [if_pos hs] at h
          exact strat2Aux_valid rest _ _ _ r h
        · rw [if_neg hs] at h
          exact strat2Aux_valid rest _ _ _ r h

/-- The strategy 3 scan returns only trial-parsed candidates. -/
theorem strat3Aux_valid : ∀ (l : List Char) (started : Bool) (depth : Int)
    (acc : List Char) (r : String),
    strat3Aux started depth acc l = some r → (jsonParse r).isSome = true
  | [], _, _, _, r => by
    intro h
    exact absurd h (by simp [strat3Aux])
  | c :: rest, started, depth, acc, r => by
    intro h
    unfold strat3Aux at h
    by_cases h1 : c = lbrack
    · rw [if_pos h1] at h
      by_cases hs : started = true
      · rw [if_pos hs] at h
        exact strat3Aux_valid rest _ _ _ r h
      · rw [if_neg hs] at h
        exact strat3Aux_valid rest _ _ _ r h
    · rw [if_neg h1] at h
      by_cases h2 : c = rbrack
      · rw [if_pos h2] at h
        by_cases hs : started = true
        · rw [if_pos hs] at h
          dsimp only at h
          by_cases hd : depth - 1 = 0
          · rw [if_pos hd] at h
            by_cases hp : jparseOk ((c :: acc).reverse) = true
            · rw [if_pos hp] at h
              injection h with h2
              subst h2
              exact hp
            · rw [if_neg hp] at h
              exact strat3Aux_valid rest _ _ _ r h
          · rw [if_neg hd] at h
            exact strat3Aux_valid rest _ _ _ r h
        · rw [if_neg hs] at h
          exact strat3Aux_valid rest _ _ _ r h
      · rw [if_neg h2] at h
        by_cases hs : started = true
        · rw [if_pos hs] at h
          exact strat3Aux_valid rest _ _ _ r h
        · rw [if_neg hs] at h
          exact strat3Aux_valid rest _ _ _ r h

/-- Strategy 4 returns only trial-parsed candidates. -/
theorem strategy4_valid {text : List Char} {r : String} (h : strategy4 text = some r) :
    (jsonParse r).isSome = true := by
  unfold strategy4 at h
  cases hf : strat4Find text with
  | none => rw [hf] at h; exact absurd h (by simp)
  | some cand =>
    rw [hf] at h
    dsimp only at h
    by_cases hp : jparseOk cand = true
    · rw [if_pos hp] at h
      injection h with h2
      subst h2
      exact hp
    · rw [if_neg hp] at h
      exact absurd h (by simp)

/-- Claim C9: for every input string, `extractJsonFromText` returns either
null or a string on which `JSON.parse` succeeds: each strategy trial-parses
its candidate before returning it. -/
theorem C9_extract_valid (s : String) :
    Option.all (fun r => (jsonParse r).isSome) (extractJsonFromText s) = true := by
  have key : ∀ o : Option String,
      (∀ r, o = some r → (jsonParse r).isSome = true) →
      Option.all (fun r => (jsonParse r).isSome) o = true := by
    intro o ho
    cases o with
    | none => rfl
    | some r => simpa [Option.all] using ho r rfl
  apply key
  intro r hr
  unfold extractJsonFromText at hr
  dsimp only at hr
  split at hr
  · rename_i heq
    injection hr with hr2
    subst hr2
    exact strategy1_valid heq
  · split at hr
    · rename_i heq
      injection hr with hr2
      subst hr2
      exact strat2Aux_valid _ _ _ _ _ heq
    · split at hr
      · rename_i heq
        injection hr with hr2
        subst hr2
        exact strat3Aux_valid _ _ _ _ _ heq
      · split at hr
        · rename_i heq
          injection hr with hr2
          subst hr2
          exact strategy4_valid heq
        · split at hr
          · rename_i h5
            injection hr with hr2
            subst hr2
            exact h5
          · exact absurd hr (by simp)

/-- Witness for C10 (amended) at a concrete input with an upper-case action
and a top-level `query` parameter. -/
theorem C10_witness :
    ∃ s g, jsGet (repairDecisionObject (.jobj [("action", JVal.jstr "SEARCH_REPO"),
        ("query", JVal.jstr "foo")])) "action" = some (.jstr s) ∧ s ≠ "" ∧
      jsGet (repairDecisionObject (.jobj [("action", JVal.jstr "SEARCH_REPO"),
        ("query", JVal.jstr "foo")])) "tool_input" = some (.jobj g) ∧
      (∀ f ∈ toolInputFields,
        jsGet (repairDecisionObject (.jobj [("action", JVal.jstr "SEARCH_REPO"),
          ("query", JVal.jstr "foo")])) f = none ∨ jsGetF g f ≠ none) :=
  C10_amended [("action", JVal.jstr "SEARCH_REPO"), ("query", JVal.jstr "foo")] (by decide)

/-! ### C6: balance facts about serializations -/

/-- Unfolding lemma for `braceBal` on a cons. -/
theorem braceBal_cons (c : Char) (l : List Char) :
    braceBal (c :: l) = bstep c + braceBal l := rfl

/-- Unfolding lemma for `minBal` on a cons. -/
theorem minBal_cons (c : Char) (l : List Char) :
    minBal (c :: l) = min 0 (bstep c + minBal l) := rfl

/-- Brace balance distributes over concatenation. -/
theorem braceBal_append : ∀ a b : List Char, braceBal (a ++ b) = braceBal a + braceBal b
  | [], b => by simp [braceBal]
  | c :: a2, b => by
      rw [List.cons_append, braceBal_cons, braceBal_cons, braceBal_append a2 b]
      ring

/-- The prefix minimum is never positive (the empty prefix has balance 0). -/
theorem minBal_nonpos : ∀ l : List Char, minBal l ≤ 0
  | [] => le_refl 0
  | c :: l2 => by simp only [minBal]; exact min_le_left _ _

/-- Prefix-minimum balance of a concatenation. -/
theorem minBal_append : ∀ a b : List Char,
    minBal (a ++ b) = min (minBal a) (braceBal a + minBal b)
  | [], b => by
      simp only [List.nil_append, minBal, braceBal, Int.zero_add]
      exact (min_eq_right (minBal_nonpos b)).symm
  | c :: a2, b => by
      rw [List.cons_append, minBal_cons, minBal_cons, minBal_append a2 b, braceBal_cons]
      simp only [min_def]
      split_ifs <;> omega

/-- Every take-prefix has balance at least the prefix minimum. -/
theorem braceBal_take_ge : ∀ (l : List Char) (n : Nat), minBal l ≤ braceBal (l.take n)
  | [], n => by simp [List.take, braceBal, minBal]
  | c :: l2, 0 => by
      simp only [List.take, braceBal]
      exact minBal_nonpos (c :: l2)
  | c :: l2, n + 1 => by
      simp only [List.take, braceBal, minBal]
      have h := braceBal_take_ge l2 n
      have h2 : min 0 (bstep c + minBal l2) ≤ bstep c + minBal l2 := min_le_right _ _
      omega

/-- A brace-free list has zero balance everywhere. -/
theorem flat_serOkC : ∀ l : List Char, noBB l = true → serOkC l
  | [] => fun _ => ⟨rfl, rfl, rfl⟩
  | c :: l2 => by
      intro h
      simp only [noBB, List.all_cons, Bool.and_eq_true] at h
      obtain ⟨hc, hl2⟩ := h
      obtain ⟨ht, hb, hm⟩ := flat_serOkC l2 hl2
      simp only [plainChar, Bool.and_eq_true, bne_iff_ne] at hc
      obtain ⟨⟨h1, h2⟩, h3⟩ := hc
      refine ⟨?_, ?_, ?_⟩
      · simp only [btickFree, List.all_cons, Bool.and_eq_true, bne_iff_ne]
        exact ⟨h3, ht⟩
      · simp only [braceBal, bstep, if_neg h1, if_neg h2, hb]
        decide
      · simp only [minBal, bstep, if_neg h1, if_neg h2, hm]
        decide

/-- `serOkC` is closed under concatenation. -/
theorem serOkC_append {a b : List Char} (ha : serOkC a) (hb : serOkC b) :
    serOkC (a ++ b) := by
  obtain ⟨t1, b1, m1⟩ := ha
  obtain ⟨t2, b2, m2⟩ := hb
  refine ⟨?_, ?_, ?_⟩
  · simp only [btickFree, List.all_append] at t1 t2 ⊢
    simp [t1, t2]
  · rw [braceBal_append, b1, b2]
    decide
  · rw [minBal_append, b1, m1, m2]
    decide

/-- Wrapping in braces preserves `serOkC` (the interior never dips below
zero, so the whole block dips to zero only at its end). -/
theorem serOkC_braces {m : List Char} (hm : serOkC m) :
    serOkC (lbrace :: m ++ [rbrace]) := by
  obtain ⟨t1, b1, m1⟩ := hm
  refine ⟨?_, ?_, ?_⟩
  · simp only [btickFree, List.all_cons, List.all_append] at t1 ⊢
    simp [t1]
    decide
  · rw [show (lbrace :: m ++ [rbrace] : List Char) = lbrace :: (m ++ [rbrace]) from rfl]
    rw [braceBal, braceBal_append, b1]
    decide
  · rw [show (lbrace :: m ++ [rbrace] : List Char) = lbrace :: (m ++ [rbrace]) from rfl]
    rw [minBal, minBal_append, b1, m1]
    decide

/-- Wrapping in square brackets preserves `serOkC`. -/
theorem serOkC_bracks {m : List Char} (hm : serOkC m) :
    serOkC (lbrack :: m ++ [rbrack]) := by
  obtain ⟨t1, b1, m1⟩ := hm
  refine ⟨?_, ?_, ?_⟩
  · simp only [btickFree, List.all_cons, List.all_append] at t1 ⊢
    simp [t1]
    decide
  · rw [show (lbrack :: m ++ [rbrack] : List Char) = lbrack :: (m ++ [rbrack]) from rfl]
    rw [braceBal, braceBal_append, b1]
    decide
  · rw [show (lbrack :: m ++ [rbrack] : List Char) = lbrack :: (m ++ [rbrack]) from rfl]
    rw [minBal, minBal_append, b1, m1]
    decide

/-- Escaping a plain character yields only plain characters. -/
theorem escapeChar_noBB {c : Char} (h : plainChar c = true) :
    noBB (escapeChar c) = true := by
  unfold escapeChar
  split
  · decide
  · split
    · decide
    · split
      · decide
      · split
        · decide
        · split
          · decide
          · split
            · decide
            · split
              · decide
              · split
                · rename_i h32
                  simp only [noBB, List.all_cons, List.all_nil, Bool.and_eq_true]
                  have d1 : c.toNat / 16 < 16 := by omega
                  have d2 : c.toNat % 16 < 16 := by omega
                  refine ⟨by decide, by decide, by decide, by decide, ?_, ?_, trivial⟩
                  · unfold hexDigitChar
                    split <;> · rename_i hlt; interval_cases h : c.toNat / 16 <;> decide
                  · unfold hexDigitChar
                    split <;> · rename_i hlt; interval_cases h : c.toNat % 16 <;> decide
                · simp [noBB, h]

/-- Escaping a brace- and backtick-free list yields such a list. -/
theorem escChars_noBB : ∀ l : List Char, noBB l = true → noBB (escChars l) = true
  | [] => fun _ => rfl
  | c :: l2 => by
      intro h
      simp only [noBB, List.all_cons, Bool.and_eq_true] at h
      simp only [escChars, noBB, List.all_append]
      rw [show List.all (escapeChar c) plainChar = noBB (escapeChar c) from rfl]
      rw [show List.all (escChars l2) plainChar = noBB (escChars l2) from rfl]
      rw [escapeChar_noBB h.1, escChars_noBB l2 h.2]
      rfl

/-- Digit characters emitted for naturals are plain. -/
theorem natDigitsAux_noBB : ∀ (fuel n : Nat), noBB (natDigitsAux fuel n) = true
  | 0, _ => rfl
  | fuel + 1, n => by
      unfold natDigitsAux
      split
      · rename_i h10
        simp only [noBB, List.all_cons, List.all_nil, Bool.and_eq_true]
        refine ⟨?_, trivial⟩
        unfold digitChar
        interval_cases n <;> decide
      · simp only [noBB, List.all_append, List.all_cons, List.all_nil, Bool.and_eq_true]
        refine ⟨natDigitsAux_noBB fuel (n / 10), ?_, trivial⟩
        unfold digitChar
        have : n % 10 < 10 := Nat.mod_lt _ (by omega)
        interval_cases h : n % 10 <;> decide

/-- Integer literals contain no braces or backticks. -/
theorem intChars_noBB (n : Int) : noBB (intChars n) = true := by
  unfold intChars natDigits
  split
  · simp only [noBB, List.all_cons, Bool.and_eq_true]
    exact ⟨by decide, natDigitsAux_noBB _ _⟩
  · exact natDigitsAux_noBB _ _

mutual

/-- Serializations of brace/backtick-clean values are backtick-free, have
zero net brace balance, and no prefix with negative balance. -/
theorem serFacts : ∀ v : JVal, jnoBB v = true → serOkC (serChars v)
  | .jnull, _ => flat_serOkC _ (by decide)
  | .jbool true, _ => flat_serOkC _ (by decide)
  | .jbool false, _ => flat_serOkC _ (by decide)
  | .jnum n, _ => flat_serOkC _ (intChars_noBB n)
  | .jstr s, h => by
      have hs : noBB s.toList = true := h
      have h1 : serOkC (escChars s.toList) := flat_serOkC _ (escChars_noBB _ hs)
      have h2 : serOkC [dquote] := flat_serOkC _ (by decide)
      rw [show serChars (.jstr s) = [dquote] ++ (escChars s.toList ++ [dquote]) from rfl]
      exact serOkC_append h2 (serOkC_append h1 h2)
  | .jarr xs, h => by
      have hx : jnoBBArr xs = true := h
      have := serOkC_bracks (serArrFacts xs hx)
      simpa [serChars] using this
  | .jobj fs, h => by
      have hx : jnoBBObj fs = true := h
      have := serOkC_braces (serObjFacts fs hx)
      simpa [serChars] using this

/-- Array-element serializations of clean arrays satisfy `serOkC`. -/
theorem serArrFacts : ∀ xs : List JVal, jnoBBArr xs = true → serOkC (serArr xs)
  | [], _ => ⟨rfl, rfl, rfl⟩
  | [x], h => by
      have hx : jnoBB x = true := by
        simp only [jnoBBArr, Bool.and_eq_true] at h
        exact h.1
      simpa [serArr] using serFacts x hx
  | x :: y :: xs, h => by
      simp only [jnoBBArr, Bool.and_eq_true] at h
      rw [show serArr (x :: y :: xs) = serChars x ++ ([','] ++ serArr (y :: xs)) from rfl]
      refine serOkC_append (serFacts x h.1) (serOkC_append (flat_serOkC _ (by decide)) ?_)
      exact serArrFacts (y :: xs) (by simp [jnoBBArr, h.2.1, h.2.2])

/-- Member serializations of clean objects satisfy `serOkC`. -/
theorem serObjFacts : ∀ fs : List (String × JVal), jnoBBObj fs = true → serOkC (serObj fs)
  | [], _ => ⟨rfl, rfl, rfl⟩
  | [(k, v)], h => by
      simp only [jnoBBObj, Bool.and_eq_true] at h
      rw [show serObj [(k, v)] = [dquote] ++ (escChars k.toList ++ ([dquote, ':'] ++ serChars v))
          from rfl]
      refine serOkC_append (flat_serOkC _ (by decide)) ?_
      refine serOkC_append (flat_serOkC _ (escChars_noBB _ h.1.1)) ?_
      exact serOkC_append (flat_serOkC _ (by decide)) (serFacts v h.1.2)
  | (k, v) :: ⟨k2, v2⟩ :: fs, h => by
      simp only [jnoBBObj, Bool.and_eq_true] at h
      rw [show serObj ((k, v) :: (k2, v2) :: fs) =
          ([dquote] ++ (escChars k.toList ++ ([dquote, ':'] ++ serChars v))) ++
            ([','] ++ serObj ((k2, v2) :: fs)) from rfl]
      refine serOkC_append ?_ (serOkC_append (flat_serOkC _ (by decide)) ?_)
      · refine serOkC_append (flat_serOkC _ (by decide)) ?_
        refine serOkC_append (flat_serOkC _ (escChars_noBB _ h.1.1)) ?_
        exact serOkC_append (flat_serOkC _ (by decide)) (serFacts v h.1.2)
      · exact serObjFacts ((k2, v2) :: fs) (by
          simp only [jnoBBObj, Bool.and_eq_true]
          exact ⟨⟨h.2.1.1, h.2.1.2⟩, h.2.2⟩)

end

/-! ### C6: behaviour of strategy 2 on balanced input -/

/-- Taking at most the left part of a concatenation. -/
theorem take_append_le : ∀ (n : Nat) (a b : List Char), n ≤ a.length →
    (a ++ b).take n = a.take n
  | 0, _, _, _ => by simp
  | n + 1, [], b, h => by simp at h
  | n + 1, c :: a2, b, h => by
      simp only [List.cons_append, List.take_succ_cons]
      rw [take_append_le n a2 b (by simpa using h)]

/-- One strategy-2 step on an opening brace while started. -/
theorem strat2Aux_step_lb (d : Int) (acc rest : List Char) :
    strat2Aux true d acc (lbrace :: rest) = strat2Aux true (d + 1) (lbrace :: acc) rest := rfl

/-- One strategy-2 step on a closing brace while started. -/
theorem strat2Aux_step_rb (d : Int) (acc rest : List Char) :
    strat2Aux true d acc (rbrace :: rest) =
      (if d - 1 = 0 then
        (if jparseOk (rbrace :: acc).reverse then some (String.mk (rbrace :: acc).reverse)
         else strat2Aux false (d - 1) [] rest)
       else strat2Aux true (d - 1) (rbrace :: acc) rest) := rfl

/-- One strategy-2 step on a non-brace character while started. -/
theorem strat2Aux_step_other (d : Int) (acc rest : List Char) (c : Char)
    (h1 : c ≠ lbrace) (h2 : c ≠ rbrace) :
    strat2Aux true d acc (c :: rest) = strat2Aux true d (c :: acc) rest := by
  simp only [strat2Aux, if_neg h1, if_neg h2]
  exact if_pos trivial

/-- One strategy-2 step on the first opening brace. -/
theorem strat2Aux_start_lb (rest : List Char) :
    strat2Aux false 0 [] (lbrace :: rest) = strat2Aux true 1 [lbrace] rest := rfl

/-- Strategy 2 ignores non-brace characters before the first opening brace. -/
theorem strat2_skip : ∀ (p rest : List Char), braceFree p = true →
    strat2Aux false 0 [] (p ++ rest) = strat2Aux false 0 [] rest
  | [], rest, _ => rfl
  | c :: p2, rest, h => by
      simp only [braceFree, List.all_cons, Bool.and_eq_true, bne_iff_ne] at h
      obtain ⟨⟨h1, h2⟩, hp⟩ := h
      rw [List.cons_append]
      have hstep : strat2Aux false 0 [] (c :: (p2 ++ rest)) =
          strat2Aux false 0 [] (p2 ++ rest) := by
        simp only [strat2Aux, if_neg h1, if_neg h2]
        exact if_neg Bool.false_ne_true
      rw [hstep]
      exact strat2_skip p2 rest (by simp [braceFree, hp])

/-- Having started at depth `d ≥ 1`, strategy 2 consumes a block whose every
proper prefix keeps the depth positive and whose total balance closes the
depth, producing exactly that block as candidate (or resuming the scan after
a failed trial parse). -/
theorem strat2_consume : ∀ (l : List Char) (d : Int) (acc rest : List Char),
    1 ≤ d →
    (∀ n : Nat, n < l.length → 0 < d + braceBal (l.take n)) →
    d + braceBal l = 0 →
    strat2Aux true d acc (l ++ rest) =
      (if jparseOk (acc.reverse ++ l) then some (String.mk (acc.reverse ++ l))
       else strat2Aux false 0 [] rest)
  | [], d, acc, rest => by
      intro h1 _ h3
      exfalso
      simp only [braceBal] at h3
      omega
  | c :: l2, d, acc, rest => by
      intro h1 h2 h3
      rw [braceBal_cons] at h3
      rw [List.cons_append]
      by_cases hb : c = lbrace
      · subst hb
        have hstep : bstep lbrace = 1 := by decide
        rw [hstep] at h3
        rw [strat2Aux_step_lb]
        rw [strat2_consume l2 (d + 1) (lbrace :: acc) rest (by omega)
          (fun n hn => by
            have hh := h2 (n + 1) (by simp only [List.length_cons]; omega)
            rw [List.take_succ_cons, braceBal_cons, hstep] at hh
            omega)
          (by omega)]
        have e : (lbrace :: acc).reverse ++ l2 = acc.reverse ++ lbrace :: l2 := by simp
        rw [e]
      · by_cases hr : c = rbrace
        · subst hr
          have hstep : bstep rbrace = -1 := by decide
          rw [hstep] at h3
          rw [strat2Aux_step_rb]
          by_cases hd : d - 1 = 0
          · cases l2 with
            | nil =>
              rw [if_pos hd, hd]
              have e : (rbrace :: acc).reverse = acc.reverse ++ [rbrace] := by simp
              rw [e, List.nil_append]
            | cons c2 l3 =>
              exfalso
              have hh := h2 1 (by simp only [List.length_cons]; omega)
              rw [show List.take 1 (rbrace :: c2 :: l3) = [rbrace] from rfl] at hh
              rw [braceBal_cons, hstep] at hh
              simp only [braceBal] at hh
              omega
          · rw [if_neg hd]
            rw [strat2_consume l2 (d - 1) (rbrace :: acc) rest (by omega)
              (fun n hn => by
                have hh := h2 (n + 1) (by simp only [List.length_cons]; omega)
                rw [List.take_succ_cons, braceBal_cons, hstep] at hh
                omega)
              (by omega)]
            have e : (rbrace :: acc).reverse ++ l2 = acc.reverse ++ rbrace :: l2 := by simp
            rw [e]
        · have hstep : bstep c = 0 := by simp [bstep, if_neg hb, if_neg hr]
          rw [hstep] at h3
          rw [strat2Aux_step_other d acc _ c hb hr]
          rw [strat2_consume l2 d (c :: acc) rest h1
            (fun n hn => by
              have hh := h2 (n + 1) (by simp only [List.length_cons]; omega)
              rw [List.take_succ_cons, braceBal_cons, hstep] at hh
              omega)
            (by omega)]
          have e : (c :: acc).reverse ++ l2 = acc.reverse ++ c :: l2 := by simp
          rw [e]

/-- Strategy 2 on prose followed by the serialization of a clean object:
the first balanced block is exactly the serialization, and since it parses,
it is returned. -/
theorem strat2_text (fs : List (String × JVal)) (p1 p2 : List Char)
    (hp1 : braceFree p1 = true)
    (hser : serOkC (serObj fs))
    (hok : jparseOk (serChars (JVal.jobj fs)) = true) :
    strat2Aux false 0 [] (p1 ++ (serChars (JVal.jobj fs) ++ p2)) =
      some (jsonSerialize (JVal.jobj fs)) := by
  obtain ⟨ht, hb, hm⟩ := hser
  rw [strat2_skip p1 _ hp1]
  rw [show serChars (JVal.jobj fs) ++ p2 = lbrace :: ((serObj fs ++ [rbrace]) ++ p2) from by
    simp [serChars]]
  rw [strat2Aux_start_lb]
  have hpre : ∀ n : Nat, n < (serObj fs ++ [rbrace]).length →
      0 < 1 + braceBal ((serObj fs ++ [rbrace]).take n) := by
    intro n hn
    have hn2 : n ≤ (serObj fs).length := by
      simp only [List.length_append, List.length_cons, List.length_nil] at hn
      omega
    rw [take_append_le n _ _ hn2]
    have hg := braceBal_take_ge (serObj fs) n
    omega
  have hbal : (1 : Int) + braceBal (serObj fs ++ [rbrace]) = 0 := by
    rw [braceBal_append, hb]
    decide
  rw [strat2_consume (serObj fs ++ [rbrace]) 1 [lbrace] p2 (by omega) hpre hbal]
  have e : ([lbrace] : List Char).reverse ++ (serObj fs ++ [rbrace]) =
      serChars (JVal.jobj fs) := by simp [serChars]
  rw [e, if_pos hok]
  rfl

/-! ### C6: behaviour of strategy 1 -/

/-- Without backticks there is no fence. -/
theorem findFence_none : ∀ l : List Char, btickFree l = true → findFence l = none
  | [], _ => rfl
  | c :: rest, h => by
      simp only [btickFree, List.all_cons, Bool.and_eq_true, bne_iff_ne] at h
      simp only [findFence]
      split
      · rename_i hcond
        exfalso
        simp only [Bool.and_eq_true, decide_eq_true_eq] at hcond
        exact h.1 hcond.1
      · exact findFence_none rest (by simp [btickFree, h.2])

/-- A backtick-free prefix is transparent to the fence search. -/
theorem findFence_append : ∀ p l : List Char, btickFree p = true →
    findFence (p ++ l) = findFence l
  | [], l, _ => rfl
  | c :: p2, l, h => by
      simp only [btickFree, List.all_cons, Bool.and_eq_true, bne_iff_ne] at h
      rw [List.cons_append]
      simp only [findFence]
      split
      · rename_i hcond
        exfalso
        simp only [Bool.and_eq_true, decide_eq_true_eq] at hcond
        exact h.1 hcond.1
      · exact findFence_append p2 l (by simp [btickFree, h.2])

/-- Splitting at the first triple backtick after a backtick-free block. -/
theorem splitAtTriple_flat : ∀ l t : List Char, btickFree l = true →
    splitAtTriple (l ++ (btick :: btick :: btick :: t)) = some (l, t)
  | [], t, _ => by
      simp only [List.nil_append, splitAtTriple]
      split
      · rfl
      · rename_i hcond
        exfalso
        apply hcond
        simp
  | c :: l2, t, h => by
      simp only [btickFree, List.all_cons, Bool.and_eq_true, bne_iff_ne] at h
      rw [List.cons_append]
      simp only [splitAtTriple]
      split
      · rename_i hcond
        exfalso
        simp only [Bool.and_eq_true, decide_eq_true_eq] at hcond
        exact h.1 hcond.1
      · rw [splitAtTriple_flat l2 t (by simp [btickFree, h.2])]
        rfl

/-- Without backticks, strategy 1 yields nothing. -/
theorem strategy1_none (l : List Char) (h : btickFree l = true) : strategy1 l = none := by
  unfold strategy1
  rw [findFence_none l h]

/-- Trimming the capture of the fence: the serialization of an object starts
with a brace and ends with a brace, so only the trailing newline goes. -/
theorem trimChars_ser (fs : List (String × JVal)) :
    trimChars (serChars (JVal.jobj fs) ++ ['\n']) = serChars (JVal.jobj fs) := by
  unfold trimChars
  have h1 : skipWs (serChars (JVal.jobj fs) ++ ['\n']) =
      serChars (JVal.jobj fs) ++ ['\n'] := by
    rw [show serChars (JVal.jobj fs) ++ ['\n'] =
        lbrace :: ((serObj fs ++ [rbrace]) ++ ['\n']) from by simp [serChars]]
    exact skipWs_cons_not (by decide)
  rw [h1]
  have h2 : (serChars (JVal.jobj fs) ++ ['\n']).reverse =
      '\n' :: (rbrace :: ((serObj fs).reverse ++ [lbrace])) := by
    simp [serChars, List.reverse_append]
  rw [h2, skipWs_cons_ws (by decide), skipWs_cons_not (by decide)]
  rw [show (rbrace :: ((serObj fs).reverse ++ [lbrace]) : List Char) =
      (serChars (JVal.jobj fs)).reverse from by simp [serChars, List.reverse_append]]
  exact List.reverse_reverse _

/-- Strategy 1 on a fenced clean-object serialization returns exactly the
serialization. -/
theorem strategy1_fenced (fs : List (String × JVal)) (p1 p2 : List Char)
    (hp1 : btickFree p1 = true)
    (hser : btickFree (serChars (JVal.jobj fs)) = true)
    (hok : jparseOk (serChars (JVal.jobj fs)) = true) :
    strategy1 (fenceWrap p1 (serChars (JVal.jobj fs)) p2) =
      some (jsonSerialize (JVal.jobj fs)) := by
  unfold strategy1 fenceWrap
  rw [findFence_append p1 _ hp1]
  have e0 : findFence (btick :: btick :: btick :: 'j' :: 's' :: 'o' :: 'n' :: '\n' ::
      (serChars (JVal.jobj fs) ++ '\n' :: btick :: btick :: btick :: p2)) =
      match fenceCapture ('j' :: 's' :: 'o' :: 'n' :: '\n' ::
        (serChars (JVal.jobj fs) ++ '\n' :: btick :: btick :: btick :: p2)) with
      | some cap => some cap
      | none => findFence (btick :: btick :: 'j' :: 's' :: 'o' :: 'n' :: '\n' ::
          (serChars (JVal.jobj fs) ++ '\n' :: btick :: btick :: btick :: p2)) := rfl
  rw [e0]
  have e1 : fenceCapture ('j' :: 's' :: 'o' :: 'n' :: '\n' ::
      (serChars (JVal.jobj fs) ++ '\n' :: btick :: btick :: btick :: p2)) =
      (splitAtTriple (skipWs (serChars (JVal.jobj fs) ++
        '\n' :: btick :: btick :: btick :: p2))).map Prod.fst := rfl
  rw [e1]
  have e2 : skipWs (serChars (JVal.jobj fs) ++ '\n' :: btick :: btick :: btick :: p2) =
      serChars (JVal.jobj fs) ++ '\n' :: btick :: btick :: btick :: p2 := by
    rw [show serChars (JVal.jobj fs) ++ '\n' :: btick :: btick :: btick :: p2 =
        lbrace :: ((serObj fs ++ [rbrace]) ++ '\n' :: btick :: btick :: btick :: p2) from by
      simp [serChars]]
    exact skipWs_cons_not (by decide)
  rw [e2]
  have e3 : serChars (JVal.jobj fs) ++ '\n' :: btick :: btick :: btick :: p2 =
      (serChars (JVal.jobj fs) ++ ['\n']) ++ (btick :: btick :: btick :: p2) := by
    simp
  rw [e3]
  rw [splitAtTriple_flat _ p2 (by
    simp only [btickFree, List.all_append] at hser ⊢
    simp [hser]
    decide)]
  dsimp only [Option.map]
  rw [trimChars_ser fs, if_pos hok]
  rfl

/-! ### C6: parse/serialize round trip, digit and string lemmas -/

/-- Code of an emitted digit character. -/
theorem toNat_digitChar {m : Nat} (h : m < 10) : (digitChar m).toNat = 48 + m := by
  interval_cases m <;> decide

/-- Emitted digit characters satisfy the digit test. -/
theorem isDigit_digitChar {m : Nat} (h : m < 10) : isDigitChar (digitChar m) = true := by
  interval_cases m <;> decide

/-- The digit printer never returns the empty list on positive fuel. -/
theorem natDigitsAux_ne_nil : ∀ (fuel n : Nat), 0 < fuel → natDigitsAux fuel n ≠ []
  | 0, _, h => by omega
  | fuel + 1, n, _ => by
      unfold natDigitsAux
      split
      · simp
      · simp

/-- All characters of the digit printer are digits. -/
theorem natDigitsAux_all_digit : ∀ (fuel n : Nat),
    (natDigitsAux fuel n).all isDigitChar = true
  | 0, _ => rfl
  | fuel + 1, n => by
      unfold natDigitsAux
      split
      · rename_i h10
        simp [isDigit_digitChar h10]
      · rename_i h10
        simp only [List.all_append, List.all_cons, List.all_nil, Bool.and_eq_true]
        have : n % 10 < 10 := Nat.mod_lt _ (by omega)
        exact ⟨natDigitsAux_all_digit fuel (n / 10), isDigit_digitChar this, trivial⟩

/-- The leading digit of a positive number is not zero. -/
theorem natDigitsAux_head : ∀ (fuel n : Nat), 1 ≤ n → n < fuel →
    (natDigitsAux fuel n).head? ≠ some '0'
  | 0, n, _, h => by omega
  | fuel + 1, n, h1, h2 => by
      unfold natDigitsAux
      split
      · rename_i h10
        simp only [List.head?]
        intro he
        injection he with he
        have : (digitChar n).toNat = 48 := by rw [he]; decide
        rw [toNat_digitChar h10] at this
        omega
      · rename_i h10
        push_neg at h10
        obtain ⟨c, t, hct⟩ := List.exists_cons_of_ne_nil
          (natDigitsAux_ne_nil fuel (n / 10) (by omega))
        rw [hct, List.cons_append]
        simp only [List.head?]
        have := natDigitsAux_head fuel (n / 10) (by omega) (by omega)
        rw [hct] at this
        simpa using this

/-- The digit-value fold inverts the digit printer. -/
theorem digitsVal_natDigitsAux : ∀ (fuel n a : Nat), n < fuel →
    (natDigitsAux fuel n).foldl (fun acc c => acc * 10 + (c.toNat - 48)) a =
      a * 10 ^ (natDigitsAux fuel n).length + n
  | 0, n, a, h => by omega
  | fuel + 1, n, a, h => by
      unfold natDigitsAux
      split
      · rename_i h10
        simp only [List.foldl, List.length_cons, List.length_nil]
        rw [toNat_digitChar h10]
        omega
      · rename_i h10
        push_neg at h10
        rw [List.foldl_append]
        rw [digitsVal_natDigitsAux fuel (n / 10) a (by omega)]
        simp only [List.foldl, List.length_append, List.length_cons, List.length_nil]
        rw [toNat_digitChar (Nat.mod_lt _ (by omega))]
        have e1 : (a * 10 ^ (natDigitsAux fuel (n / 10)).length + n / 10) * 10 +
            (48 + n % 10 - 48) =
            a * (10 ^ (natDigitsAux fuel (n / 10)).length * 10) + (n / 10 * 10 + n % 10) := by
          have e0 : 48 + n % 10 - 48 = n % 10 := by omega
          rw [e0]; ring
        rw [e1]
        rw [show n / 10 * 10 + n % 10 = n from by omega]
        rw [← pow_succ]

/-- `natDigits` is never empty. -/
theorem natDigits_ne_nil (m : Nat) : natDigits m ≠ [] :=
  natDigitsAux_ne_nil (m + 1) m (by omega)

/-- `natDigits` emits only digits. -/
theorem natDigits_all_digit (m : Nat) : (natDigits m).all isDigitChar = true :=
  natDigitsAux_all_digit (m + 1) m

/-- `digitsVal` inverts `natDigits`. -/
theorem digitsVal_natDigits (m : Nat) : digitsVal (natDigits m) = m := by
  unfold digitsVal natDigits
  rw [digitsVal_natDigitsAux (m + 1) m 0 (by omega)]
  simp

/-- `natDigits` has no leading zero unless it is the single digit 0. -/
theorem natDigits_no_lead (m : Nat) :
    ¬((natDigits m).length > 1 ∧ (natDigits m).head? = some '0') := by
  rintro ⟨hlen, hhd⟩
  by_cases h10 : m < 10
  · rw [show natDigits m = [digitChar m] from by unfold natDigits natDigitsAux; rw [if_pos h10]]
      at hlen
    simp at hlen
  · push_neg at h10
    exact natDigitsAux_head (m + 1) m (by omega) (by omega) hhd

/-- A digit character is not whitespace. -/
theorem digit_not_ws {c : Char} (h : isDigitChar c = true) : isWsChar c = false := by
  cases hx : isWsChar c
  · rfl
  · exfalso
    simp only [isWsChar, Bool.or_eq_true, decide_eq_true_eq] at hx
    rcases hx with ((h1 | h1) | h1) | h1 <;> (subst h1; exact absurd h (by decide))

/-- A digit character is none of the JSON structural characters. -/
theorem digit_ne_special {c : Char} (h : isDigitChar c = true) :
    c ≠ dquote ∧ c ≠ lbrace ∧ c ≠ lbrack ∧ c ≠ rbrack ∧ c ≠ rbrace ∧ c ≠ ',' ∧ c ≠ '-' := by
  refine ⟨?_, ?_, ?_, ?_, ?_, ?_, ?_⟩ <;> (intro he; subst he; exact absurd h (by decide))

/-- `parseHexDigit` inverts `hexDigitChar` on nibble values. -/
theorem parseHexDigit_hex {m : Nat} (h : m < 16) :
    parseHexDigit (hexDigitChar m) = some m := by
  interval_cases m <;> decide

/-- Decoding a `\u00XX` escape steps through six characters at one fuel cost. -/
theorem parseStrBody_u (f : Nat) (h1 h2 : Char) (a b : Nat) (X : List Char)
    (ha : parseHexDigit h1 = some a) (hb : parseHexDigit h2 = some b) :
    parseStrBody (f + 1) (bslash :: 'u' :: '0' :: '0' :: h1 :: h2 :: X) =
      (parseStrBody f X).map (fun p => (Char.ofNat (a * 16 + b) :: p.1, p.2)) := by
  simp only [parseStrBody]
  rw [if_neg (by decide : ¬(bslash = dquote)), if_pos trivial]
  rw [if_neg (by decide : ¬('u' = dquote)), if_neg (by decide : ¬('u' = bslash)),
    if_neg (by decide : ¬('u' = '/')), if_neg (by decide : ¬('u' = 'n')),
    if_neg (by decide : ¬('u' = 't')), if_neg (by decide : ¬('u' = 'r')),
    if_neg (by decide : ¬('u' = 'b')), if_neg (by decide : ¬('u' = 'f')),
    if_pos trivial]
  rw [show parseHexDigit '0' = some 0 from rfl, ha, hb]
  dsimp only
  rw [show ((0 * 16 + 0) * 16 + a) * 16 + b = a * 16 + b from by ring]

/-- Length of a single-character escape is at least one. -/
theorem escapeChar_len (c : Char) : 1 ≤ (escapeChar c).length := by
  unfold escapeChar
  split_ifs <;> simp

/-- `parseStrBody` inverts `escChars` with the original characters restored,
stopping at the unescaped closing quote. -/
theorem parseStrBody_round : ∀ (l : List Char) (fuel : Nat) (rest : List Char),
    (escChars l).length < fuel →
    parseStrBody fuel (escChars l ++ (dquote :: rest)) = some (l, rest)
  | [], fuel, rest, h => by
      cases fuel with
      | zero => omega
      | succ f => rfl
  | c :: l2, fuel, rest, h => by
      rw [show escChars (c :: l2) = escapeChar c ++ escChars l2 from rfl] at h
      rw [List.length_append] at h
      cases fuel with
      | zero => omega
      | succ f =>
        rw [show escChars (c :: l2) ++ (dquote :: rest) =
            escapeChar c ++ (escChars l2 ++ (dquote :: rest)) from by
          rw [show escChars (c :: l2) = escapeChar c ++ escChars l2 from rfl,
            List.append_assoc]]
        by_cases hq : c = dquote
        · subst hq
          have ih := parseStrBody_round l2 f rest (by
            have := escapeChar_len dquote
            omega)
          show parseStrBody (f + 1)
            (bslash :: dquote :: (escChars l2 ++ (dquote :: rest))) = _
          rw [show parseStrBody (f + 1)
              (bslash :: dquote :: (escChars l2 ++ (dquote :: rest))) =
              (parseStrBody f (escChars l2 ++ (dquote :: rest))).map
                (fun p => (dquote :: p.1, p.2)) from rfl]
          rw [ih]
          rfl
        · by_cases hbs : c = bslash
          · subst hbs
            have ih := parseStrBody_round l2 f rest (by
              have := escapeChar_len bslash
              omega)
            show parseStrBody (f + 1)
              (bslash :: bslash :: (escChars l2 ++ (dquote :: rest))) = _
            rw [show parseStrBody (f + 1)
                (bslash :: bslash :: (escChars l2 ++ (dquote :: rest))) =
                (parseStrBody f (escChars l2 ++ (dquote :: rest))).map
                  (fun p => (bslash :: p.1, p.2)) from rfl]
            rw [ih]
            rfl
          · by_cases hn : c = '\n'
            · subst hn
              have ih := parseStrBody_round l2 f rest (by
                have := escapeChar_len '\n'
                omega)
              show parseStrBody (f + 1)
                (bslash :: 'n' :: (escChars l2 ++ (dquote :: rest))) = _
              rw [show parseStrBody (f + 1)
                  (bslash :: 'n' :: (escChars l2 ++ (dquote :: rest))) =
                  (parseStrBody f (escChars l2 ++ (dquote :: rest))).map
                    (fun p => ('\n' :: p.1, p.2)) from rfl]
              rw [ih]
              rfl
            · by_cases ht : c = '\t'
              · subst ht
                have ih := parseStrBody_round l2 f rest (by
                  have := escapeChar_len '\t'
                  omega)
                show parseStrBody (f + 1)
                  (bslash :: 't' :: (escChars l2 ++ (dquote :: rest))) = _
                rw [show parseStrBody (f + 1)
                    (bslash :: 't' :: (escChars l2 ++ (dquote :: rest))) =
                    (parseStrBody f (escChars l2 ++ (dquote :: rest))).map
                      (fun p => ('\t' :: p.1, p.2)) from rfl]
                rw [ih]
                rfl
              · by_cases hrr : c = '\x0d'
                · subst hrr
                  have ih := parseStrBody_round l2 f rest (by
                    have := escapeChar_len '\x0d'
                    omega)
                  show parseStrBody (f + 1)
                    (bslash :: 'r' :: (escChars l2 ++ (dquote :: rest))) = _
                  rw [show parseStrBody (f + 1)
                      (bslash :: 'r' :: (escChars l2 ++ (dquote :: rest))) =
                      (parseStrBody f (escChars l2 ++ (dquote :: rest))).map
                        (fun p => ('\x0d' :: p.1, p.2)) from rfl]
                  rw [ih]
                  rfl
                · by_cases h8 : c.toNat = 8
                  · have hesc : escapeChar c = [bslash, 'b'] := by
                      unfold escapeChar
                      rw [if_neg hq, if_neg hbs, if_neg hn, if_neg ht, if_neg hrr,
                        if_pos h8]
                    rw [hesc]
                    have ih := parseStrBody_round l2 f rest (by
                      rw [hesc] at h
                      simp only [List.length_cons, List.length_nil] at h
                      omega)
                    rw [show parseStrBody (f + 1)
                        ([bslash, 'b'] ++ (escChars l2 ++ (dquote :: rest))) =
                        (parseStrBody f (escChars l2 ++ (dquote :: rest))).map
                          (fun p => (Char.ofNat 8 :: p.1, p.2)) from rfl]
                    rw [ih]
                    rw [show Char.ofNat 8 = Char.ofNat c.toNat from by rw [h8],
                      Char.ofNat_toNat]
                    rfl
                  · by_cases h12 : c.toNat = 12
                    · have hesc : escapeChar c = [bslash, 'f'] := by
                        unfold escapeChar
                        rw [if_neg hq, if_neg hbs, if_neg hn, if_neg ht, if_neg hrr,
                          if_neg h8, if_pos h12]
                      rw [hesc]
                      have ih := parseStrBody_round l2 f rest (by
                        rw [hesc] at h
                        simp only [List.length_cons, List.length_nil] at h
                        omega)
                      rw [show parseStrBody (f + 1)
                          ([bslash, 'f'] ++ (escChars l2 ++ (dquote :: rest))) =
                          (parseStrBody f (escChars l2 ++ (dquote :: rest))).map
                            (fun p => (Char.ofNat 12 :: p.1, p.2)) from rfl]
                      rw [ih]
                      rw [show Char.ofNat 12 = Char.ofNat c.toNat from by rw [h12],
                        Char.ofNat_toNat]
                      rfl
                    · by_cases h32 : c.toNat < 32
                      · have hesc : escapeChar c = [bslash, 'u', '0', '0',
                            hexDigitChar (c.toNat / 16), hexDigitChar (c.toNat % 16)] := by
                          unfold escapeChar
                          rw [if_neg hq, if_neg hbs, if_neg hn, if_neg ht, if_neg hrr,
                            if_neg h8, if_neg h12, if_pos h32]
                        rw [hesc]
                        have ih := parseStrBody_round l2 f rest (by
                          rw [hesc] at h
                          simp only [List.length_cons, List.length_nil] at h
                          omega)
                        rw [show ([bslash, 'u', '0', '0', hexDigitChar (c.toNat / 16),
                            hexDigitChar (c.toNat % 16)] ++ (escChars l2 ++ (dquote :: rest)))
                            = bslash :: 'u' :: '0' :: '0' :: hexDigitChar (c.toNat / 16) ::
                              hexDigitChar (c.toNat % 16) ::
                              (escChars l2 ++ (dquote :: rest)) from rfl]
                        rw [parseStrBody_u f _ _ _ _ _
                          (parseHexDigit_hex (by omega)) (parseHexDigit_hex (by omega))]
                        rw [ih]
                        rw [show c.toNat / 16 * 16 + c.toNat % 16 = c.toNat from by omega,
                          Char.ofNat_toNat]
                        rfl
                      · have hesc : escapeChar c = [c] := by
                          unfold escapeChar
                          rw [if_neg hq, if_neg hbs, if_neg hn, if_neg ht, if_neg hrr,
                            if_neg h8, if_neg h12, if_neg h32]
                        rw [hesc]
                        have ih := parseStrBody_round l2 f rest (by
                          rw [hesc] at h
                          simp only [List.length_cons, List.length_nil] at h
                          omega)
                        rw [List.singleton_append]
                        simp only [parseStrBody]
                        rw [if_neg hq, if_neg hbs,
                          if_neg (by omega : ¬(c.toNat < 32))]
                        rw [ih]
                        rfl

/-- `takeWhile` swallows exactly a block that satisfies the predicate when
the continuation starts with a failing character (or is empty). -/
theorem takeWhile_append_eq : ∀ (l1 l2 : List Char) (p : Char → Bool),
    l1.all p = true → (∀ c t, l2 = c :: t → p c = false) →
    (l1 ++ l2).takeWhile p = l1
  | [], l2, p, _, h2 => by
      cases l2 with
      | nil => rfl
      | cons c t =>
        simp only [List.nil_append, List.takeWhile]
        rw [h2 c t rfl]
  | c :: l1, l2, p, h1, h2 => by
      simp only [List.all_cons, Bool.and_eq_true] at h1
      rw [List.cons_append, List.takeWhile_cons_of_pos h1.1,
        takeWhile_append_eq l1 l2 p h1.2 h2]

/-- The head of an integer literal: minus sign or digit. -/
theorem intChars_head (n : Int) :
    ∃ c t, intChars n = c :: t ∧ (c = '-' ∨ isDigitChar c = true) := by
  unfold intChars
  split
  · exact ⟨'-', _, rfl, Or.inl rfl⟩
  · obtain ⟨c, t, h⟩ := List.exists_cons_of_ne_nil (natDigits_ne_nil n.toNat)
    refine ⟨c, t, h, Or.inr ?_⟩
    have ha := natDigits_all_digit n.toNat
    rw [h] at ha
    simp only [List.all_cons, Bool.and_eq_true] at ha
    exact ha.1

/-- `parseNumber` inverts `intChars`, consuming exactly the literal when a
separator (or the end) follows. -/
theorem parseNumber_intChars (n : Int) (rest : List Char) (hsep : sepOk rest = true) :
    parseNumber (intChars n ++ rest) = some (n, rest) := by
  have hrest : ∀ c t, rest = c :: t → isDigitChar c = false := by
    intro c t hct
    rw [hct] at hsep
    simp only [sepOk, Bool.or_eq_true, decide_eq_true_eq] at hsep
    rcases hsep with (h1 | h1) | h1 <;> (subst h1; decide)
  have hcont : ∀ l : List Char, sepOk l = true → (match l with
      | c :: _ => (c = '.' || c = 'e' || c = 'E' : Bool)
      | [] => false) = false := by
    intro l hl
    cases l with
    | nil => rfl
    | cons c t =>
      simp only [sepOk, Bool.or_eq_true, decide_eq_true_eq] at hl
      rcases hl with (h1 | h1) | h1 <;> (subst h1; rfl)
  by_cases hneg : n < 0
  · rw [show intChars n = '-' :: natDigits n.natAbs from by
      unfold intChars; rw [if_pos hneg]]
    rw [List.cons_append]
    unfold parseNumber
    simp only
    simp only [if_true]
    rw [takeWhile_append_eq _ _ _ (natDigits_all_digit n.natAbs) hrest]
    rw [List.drop_left]
    rw [if_neg (by
      intro he
      exact natDigits_ne_nil n.natAbs (List.isEmpty_iff.mp he))]
    rw [if_neg (natDigits_no_lead n.natAbs)]
    rw [if_neg (by rw [hcont rest hsep]; exact Bool.false_ne_true)]
    rw [digitsVal_natDigits]
    rw [show -((n.natAbs : Nat) : Int) = n from by omega]
  · push_neg at hneg
    rw [show intChars n = natDigits n.toNat from by
      unfold intChars; rw [if_neg (by omega)]]
    obtain ⟨c, t, hct⟩ := List.exists_cons_of_ne_nil (natDigits_ne_nil n.toNat)
    have hcd : isDigitChar c = true := by
      have ha := natDigits_all_digit n.toNat
      rw [hct] at ha
      simp only [List.all_cons, Bool.and_eq_true] at ha
      exact ha.1
    have hcm : ¬(c = '-') := (digit_ne_special hcd).2.2.2.2.2.2
    rw [hct, List.cons_append]
    unfold parseNumber
    simp only
    rw [if_neg hcm]
    simp only
    rw [← List.cons_append, ← hct]
    rw [takeWhile_append_eq _ _ _ (natDigits_all_digit n.toNat) hrest]
    rw [List.drop_left]
    rw [if_neg (by
      intro he
      exact natDigits_ne_nil n.toNat (List.isEmpty_iff.mp he))]
    rw [if_neg (natDigits_no_lead n.toNat)]
    rw [if_neg (by rw [hcont rest hsep]; exact Bool.false_ne_true)]
    rw [digitsVal_natDigits]
    rw [show ((n.toNat : Nat) : Int) = n from Int.toNat_of_nonneg hneg]
    simp

/-- Every serialization starts with a non-whitespace character that is not a
closing bracket. -/
theorem serHead : ∀ v : JVal,
    ∃ c t, serChars v = c :: t ∧ isWsChar c = false ∧ c ≠ rbrack := by
  intro v
  cases v with
  | jnull => exact ⟨'n', _, rfl, by decide, by decide⟩
  | jbool b =>
    cases b with
    | false => exact ⟨'f', _, rfl, by decide, by decide⟩
    | true => exact ⟨'t', _, rfl, by decide, by decide⟩
  | jnum n =>
    obtain ⟨c, t, hct, hd⟩ := intChars_head n
    refine ⟨c, t, hct, ?_, ?_⟩
    · rcases hd with h1 | h1
      · subst h1; decide
      · exact digit_not_ws h1
    · rcases hd with h1 | h1
      · subst h1; decide
      · exact (digit_ne_special h1).2.2.2.1
  | jstr s => exact ⟨dquote, _, rfl, by decide, by decide⟩
  | jarr xs => exact ⟨lbrack, _, rfl, by decide, by decide⟩
  | jobj fs => exact ⟨lbrace, _, rfl, by decide, by decide⟩

/-- Serializations are nonempty. -/
theorem serLen_pos (v : JVal) : 1 ≤ (serChars v).length := by
  obtain ⟨c, t, h, _, _⟩ := serHead v
  rw [h]
  simp

/-- Setting a fresh key appends the pair at the end (JS object insertion
order). -/
theorem jsSetF_fresh : ∀ (acc : List (String × JVal)) (k : String) (v : JVal),
    notKey k acc = true → jsSetF acc k v = acc ++ [(k, v)]
  | [], k, v, _ => rfl
  | (k1, v1) :: acc2, k, v, h => by
      simp only [notKey, Bool.and_eq_true, bne_iff_ne] at h
      simp only [jsSetF, if_neg h.1, List.cons_append]
      rw [jsSetF_fresh acc2 k v h.2]

/-- `notKey` over a concatenation. -/
theorem notKey_append (x : String) : ∀ a b : List (String × JVal),
    notKey x (a ++ b) = (notKey x a && notKey x b)
  | [], b => by simp [notKey]
  | (k1, v1) :: a2, b => by
      rw [List.cons_append]
      show ((k1 != x) && notKey x (a2 ++ b)) = (((k1 != x) && notKey x a2) && notKey x b)
      rw [notKey_append x a2 b, Bool.and_assoc]

/-- Freshness survives appending a key that is absent from the member list. -/
theorem allFresh_snoc : ∀ (ms acc : List (String × JVal)) (k : String) (v : JVal),
    allFresh acc ms = true → notKey k ms = true →
    allFresh (acc ++ [(k, v)]) ms = true
  | [], _, _, _, _, _ => rfl
  | (k2, v2) :: ms2, acc, k, v, h1, h2 => by
      simp only [allFresh, Bool.and_eq_true] at h1 ⊢
      simp only [notKey, Bool.and_eq_true, bne_iff_ne] at h2
      refine ⟨?_, allFresh_snoc ms2 acc k v h1.2 h2.2⟩
      rw [notKey_append]
      simp only [notKey, Bool.and_eq_true, bne_iff_ne]
      exact ⟨h1.1, Ne.symm h2.1, trivial⟩

/-- Everything is fresh relative to the empty accumulator. -/
theorem allFresh_nil : ∀ ms : List (String × JVal), allFresh [] ms = true
  | [] => rfl
  | (k, v) :: ms2 => by
      simp only [allFresh, notKey, Bool.true_and]
      exact allFresh_nil ms2

mutual

/-- Parsing inverts serialization for well-formed values, given enough fuel
and a following separator (or end of input). -/
theorem parseVal_ser : ∀ (v : JVal) (fuel : Nat) (rest : List Char),
    jwf v = true → sepOk rest = true →
    3 * (serChars v).length < fuel →
    parseVal fuel (serChars v ++ rest) = some (v, rest)
  | .jnull, fuel, rest, _, _, hf => by
      cases fuel with
      | zero => exact absurd hf (by omega)
      | succ f =>
        rw [show serChars JVal.jnull = ['n', 'u', 'l', 'l'] from by decide]
        rw [show (['n', 'u', 'l', 'l'] : List Char) ++ rest =
            'n' :: 'u' :: 'l' :: 'l' :: rest from rfl]
        simp only [parseVal]
        rw [skipWs_cons_not (by decide)]
        dsimp only
        rw [if_neg (by decide : ¬('n' = dquote)), if_neg (by decide : ¬('n' = lbrace)),
          if_neg (by decide : ¬('n' = lbrack)),
          if_neg (by decide : ¬(('n' = '-' || isDigitChar 'n') = true))]
        rw [if_pos (show "null".toList.isPrefixOf ('n' :: 'u' :: 'l' :: 'l' :: rest) = true
          from by
            rw [show "null".toList = ('n' :: 'u' :: 'l' :: 'l' :: ([] : List Char))
              from by decide]
            simp [List.isPrefixOf])]
        rfl
  | .jbool true, fuel, rest, _, _, hf => by
      cases fuel with
      | zero => exact absurd hf (by omega)
      | succ f =>
        rw [show serChars (JVal.jbool true) = ['t', 'r', 'u', 'e'] from by decide]
        rw [show (['t', 'r', 'u', 'e'] : List Char) ++ rest =
            't' :: 'r' :: 'u' :: 'e' :: rest from rfl]
        simp only [parseVal]
        rw [skipWs_cons_not (by decide)]
        dsimp only
        rw [if_neg (by decide : ¬('t' = dquote)), if_neg (by decide : ¬('t' = lbrace)),
          if_neg (by decide : ¬('t' = lbrack)),
          if_neg (by decide : ¬(('t' = '-' || isDigitChar 't') = true))]
        rw [if_neg (show ¬("null".toList.isPrefixOf ('t' :: 'r' :: 'u' :: 'e' :: rest) = true)
          from by
            rw [show "null".toList = ('n' :: 'u' :: 'l' :: 'l' :: ([] : List Char))
              from by decide]
            simp [List.isPrefixOf])]
        rw [if_pos (show "true".toList.isPrefixOf ('t' :: 'r' :: 'u' :: 'e' :: rest) = true
          from by
            rw [show "true".toList = ('t' :: 'r' :: 'u' :: 'e' :: ([] : List Char))
              from by decide]
            simp [List.isPrefixOf])]
        rfl
  | .jbool false, fuel, rest, _, _, hf => by
      cases fuel with
      | zero => exact absurd hf (by omega)
      | succ f =>
        rw [show serChars (JVal.jbool false) = ['f', 'a', 'l', 's', 'e'] from by decide]
        rw [show (['f', 'a', 'l', 's', 'e'] : List Char) ++ rest =
            'f' :: 'a' :: 'l' :: 's' :: 'e' :: rest from rfl]
        simp only [parseVal]
        rw [skipWs_cons_not (by decide)]
        dsimp only
        rw [if_neg (by decide : ¬('f' = dquote)), if_neg (by decide : ¬('f' = lbrace)),
          if_neg (by decide : ¬('f' = lbrack)),
          if_neg (by decide : ¬(('f' = '-' || isDigitChar 'f') = true))]
        rw [if_neg (show ¬("null".toList.isPrefixOf ('f' :: 'a' :: 'l' :: 's' :: 'e' :: rest)
              = true)
          from by
            rw [show "null".toList = ('n' :: 'u' :: 'l' :: 'l' :: ([] : List Char))
              from by decide]
            simp [List.isPrefixOf])]
        rw [if_neg (show ¬("true".toList.isPrefixOf ('f' :: 'a' :: 'l' :: 's' :: 'e' :: rest)
              = true)
          from by
            rw [show "true".toList = ('t' :: 'r' :: 'u' :: 'e' :: ([] : List Char))
              from by decide]
            simp [List.isPrefixOf])]
        rw [if_pos (show "false".toList.isPrefixOf ('f' :: 'a' :: 'l' :: 's' :: 'e' :: rest)
              = true
          from by
            rw [show "false".toList = ('f' :: 'a' :: 'l' :: 's' :: 'e' :: ([] : List Char))
              from by decide]
            simp [List.isPrefixOf])]
        rfl
  | .jnum n, fuel, rest, _, hsep, hf => by
      cases fuel with
      | zero => exact absurd hf (by omega)
      | succ f =>
        obtain ⟨c, t, hct, hd⟩ := intChars_head n
        have hws : isWsChar c = false := by
          rcases hd with h1 | h1
          · subst h1; decide
          · exact digit_not_ws h1
        have hnq : ¬(c = dquote) := by
          rcases hd with h1 | h1
          · subst h1; decide
          · exact (digit_ne_special h1).1
        have hnlb : ¬(c = lbrace) := by
          rcases hd with h1 | h1
          · subst h1; decide
          · exact (digit_ne_special h1).2.1
        have hnlk : ¬(c = lbrack) := by
          rcases hd with h1 | h1
          · subst h1; decide
          · exact (digit_ne_special h1).2.2.1
        have hdig : (c = '-' || isDigitChar c) = true := by
          rcases hd with h1 | h1
          · subst h1; rfl
          · rw [h1]; simp
        show parseVal (f + 1) (intChars n ++ rest) = some (.jnum n, rest)
        rw [hct, List.cons_append]
        simp only [parseVal]
        rw [skipWs_cons_not hws]
        dsimp only
        rw [if_neg hnq, if_neg hnlb, if_neg hnlk, if_pos hdig]
        rw [← List.cons_append, ← hct]
        rw [parseNumber_intChars n rest hsep]
        rfl
  | .jstr s, fuel, rest, _, _, hf => by
      cases fuel with
      | zero => exact absurd hf (by omega)
      | succ f =>
        have hlen : (serChars (.jstr s)).length = (escChars s.toList).length + 2 := by
          simp [serChars]
        rw [show serChars (.jstr s) ++ rest =
            dquote :: (escChars s.toList ++ (dquote :: rest)) from by simp [serChars]]
        rw [show parseVal (f + 1) (dquote :: (escChars s.toList ++ (dquote :: rest))) =
            (parseStrBody f (escChars s.toList ++ (dquote :: rest))).map
              (fun p => (JVal.jstr (String.mk p.1), p.2)) from rfl]
        rw [parseStrBody_round s.toList f rest (by omega)]
        rfl
  | .jarr [], fuel, rest, _, _, hf => by
      have hlen : (serChars (JVal.jarr [])).length = 2 := by decide
      cases fuel with
      | zero => exact absurd hf (by omega)
      | succ f =>
        cases f with
        | zero => exact absurd hf (by omega)
        | succ f2 => rfl
  | .jarr (x :: xs2), fuel, rest, hwf, _, hf => by
      have hlen : (serChars (.jarr (x :: xs2))).length = (serArr (x :: xs2)).length + 2 := by
        simp [serChars]
      rw [hlen] at hf
      cases fuel with
      | zero => exact absurd hf (by omega)
      | succ f =>
        show parseVal (f + 1) ((lbrack :: (serArr (x :: xs2) ++ [rbrack])) ++ rest) =
          some (.jarr (x :: xs2), rest)
        rw [show (lbrack :: (serArr (x :: xs2) ++ [rbrack])) ++ rest =
            lbrack :: ((serArr (x :: xs2) ++ [rbrack]) ++ rest) from rfl]
        rw [show parseVal (f + 1) (lbrack :: ((serArr (x :: xs2) ++ [rbrack]) ++ rest)) =
            parseArrBody f ((serArr (x :: xs2) ++ [rbrack]) ++ rest) from rfl]
        rw [List.append_assoc, List.singleton_append]
        cases f with
        | zero => exact absurd hf (by omega)
        | succ f2 =>
          have hhead : ∃ c t, serArr (x :: xs2) = c :: t ∧
              isWsChar c = false ∧ ¬(c = rbrack) := by
            obtain ⟨c, t, hct, hws2, hnrb⟩ := serHead x
            cases xs2 with
            | nil => exact ⟨c, t, hct, hws2, hnrb⟩
            | cons y ys =>
              refine ⟨c, t ++ ',' :: serArr (y :: ys), ?_, hws2, hnrb⟩
              rw [show serArr (x :: y :: ys) =
                  serChars x ++ ',' :: serArr (y :: ys) from rfl, hct]
              rfl
          obtain ⟨c0, t0, hct0, hws0, hnrb0⟩ := hhead
          rw [hct0, List.cons_append]
          simp only [parseArrBody]
          rw [skipWs_cons_not hws0]
          dsimp only
          rw [if_neg hnrb0]
          rw [← List.cons_append, ← hct0]
          rw [parseElems_ser x xs2 f2 [] rest
            (show jwfArr (x :: xs2) = true from hwf) (by omega)]
          simp
  | .jobj [], fuel, rest, _, _, hf => by
      have hlen : (serChars (JVal.jobj [])).length = 2 := by decide
      cases fuel with
      | zero => exact absurd hf (by omega)
      | succ f =>
        cases f with
        | zero => exact absurd hf (by omega)
        | succ f2 => rfl
  | .jobj ((k, v) :: fs2), fuel, rest, hwf, _, hf => by
      have hlen : (serChars (.jobj ((k, v) :: fs2))).length =
          (serObj ((k, v) :: fs2)).length + 2 := by
        simp [serChars]
      rw [hlen] at hf
      cases fuel with
      | zero => exact absurd hf (by omega)
      | succ f =>
        show parseVal (f + 1) ((lbrace :: (serObj ((k, v) :: fs2) ++ [rbrace])) ++ rest) =
          some (.jobj ((k, v) :: fs2), rest)
        rw [show (lbrace :: (serObj ((k, v) :: fs2) ++ [rbrace])) ++ rest =
            lbrace :: ((serObj ((k, v) :: fs2) ++ [rbrace]) ++ rest) from rfl]
        rw [show parseVal (f + 1) (lbrace :: ((serObj ((k, v) :: fs2) ++ [rbrace]) ++ rest)) =
            parseObjBody f ((serObj ((k, v) :: fs2) ++ [rbrace]) ++ rest) from rfl]
        rw [List.append_assoc, List.singleton_append]
        cases f with
        | zero => exact absurd hf (by omega)
        | succ f2 =>
          have hhd : ∃ t0, serObj ((k, v) :: fs2) = dquote :: t0 := by
            cases fs2 with
            | nil => exact ⟨_, rfl⟩
            | cons f3 fs3 => exact ⟨_, rfl⟩
          obtain ⟨t0, ht0⟩ := hhd
          rw [ht0, List.cons_append]
          simp only [parseObjBody]
          rw [skipWs_cons_not (by decide)]
          dsimp only
          rw [if_neg (by decide : ¬(dquote = rbrace))]
          rw [← List.cons_append, ← ht0]
          rw [parseMembers_ser k v fs2 f2 [] rest
            (show jwfObj ((k, v) :: fs2) = true from hwf) (allFresh_nil _) (by omega)]
          rfl
termination_by v fuel rest h1 h2 h3 => sizeOf v

/-- Parsing the serialized elements of a nonempty array appends them to the
accumulator and stops at the closing bracket. -/
theorem parseElems_ser : ∀ (x : JVal) (xs : List JVal) (fuel : Nat)
      (acc : List JVal) (rest : List Char),
    jwfArr (x :: xs) = true →
    3 * (serArr (x :: xs)).length + 1 < fuel →
    parseElems fuel (serArr (x :: xs) ++ (rbrack :: rest)) acc =
      some (JVal.jarr (acc ++ x :: xs), rest)
  | x, xs, fuel, acc, rest, hwf, hf => by
      have hwx : jwf x = true ∧ jwfArr xs = true := by
        have h2 : (jwf x && jwfArr xs) = true := hwf
        simp only [Bool.and_eq_true] at h2
        exact h2
      have hlx := serLen_pos x
      cases fuel with
      | zero => exact absurd hf (by omega)
      | succ f =>
        simp only [parseElems]
        cases xs with
        | nil =>
          rw [show serArr [x] = serChars x from rfl]
          rw [parseVal_ser x f (rbrack :: rest) hwx.1 rfl (by
            have he : (serArr [x]).length = (serChars x).length := rfl
            omega)]
          rfl
        | cons y ys =>
          have he : (serArr (x :: y :: ys)).length =
              (serChars x).length + 1 + (serArr (y :: ys)).length := by
            rw [show serArr (x :: y :: ys) =
                serChars x ++ ',' :: serArr (y :: ys) from rfl]
            simp
            omega
          rw [show serArr (x :: y :: ys) ++ (rbrack :: rest) =
              serChars x ++ (',' :: (serArr (y :: ys) ++ (rbrack :: rest))) from by
            rw [show serArr (x :: y :: ys) =
                serChars x ++ ',' :: serArr (y :: ys) from rfl]
            simp]
          rw [parseVal_ser x f (',' :: (serArr (y :: ys) ++ (rbrack :: rest)))
            hwx.1 rfl (by omega)]
          show parseElems f (serArr (y :: ys) ++ (rbrack :: rest)) (acc ++ [x]) =
            some (JVal.jarr (acc ++ x :: y :: ys), rest)
          rw [parseElems_ser y ys f (acc ++ [x]) rest hwx.2 (by omega)]
          simp
termination_by x xs fuel acc rest h1 h2 => 1 + sizeOf x + sizeOf xs

/-- Parsing the serialized members of a nonempty object inserts them behind
the accumulator (all keys fresh) and stops at the closing brace. -/
theorem parseMembers_ser : ∀ (k : String) (v : JVal) (fs : List (String × JVal))
      (fuel : Nat) (acc : List (String × JVal)) (rest : List Char),
    jwfObj ((k, v) :: fs) = true →
    allFresh acc ((k, v) :: fs) = true →
    3 * (serObj ((k, v) :: fs)).length < fuel →
    parseMembers fuel (serObj ((k, v) :: fs) ++ (rbrace :: rest)) acc =
      some (JVal.jobj (acc ++ (k, v) :: fs), rest)
  | k, v, [], fuel, acc, rest, hwf, hfr, hf => by
      have hw : jwf v = true := by
        have h2 : ((notKey k ([] : List (String × JVal)) && jwf v) &&
            jwfObj ([] : List (String × JVal))) = true := hwf
        simp only [Bool.and_eq_true] at h2
        exact h2.1.2
      have hfr2 : notKey k acc = true := by
        have h2 : (notKey k acc && allFresh acc ([] : List (String × JVal))) = true := hfr
        simp only [Bool.and_eq_true] at h2
        exact h2.1
      have hlv := serLen_pos v
      cases fuel with
      | zero => exact absurd hf (by omega)
      | succ f =>
        simp only [parseMembers]
        have hlen : (serObj [(k, v)]).length =
            (escChars k.toList).length + (serChars v).length + 3 := by
          rw [show serObj [(k, v)] =
              dquote :: (escChars k.toList ++ (dquote :: ':' :: serChars v)) from rfl]
          simp
          omega
        rw [show serObj [(k, v)] ++ (rbrace :: rest) =
            dquote :: (escChars k.toList ++
              (dquote :: (':' :: (serChars v ++ (rbrace :: rest))))) from by
          rw [show serObj [(k, v)] =
              dquote :: (escChars k.toList ++ (dquote :: ':' :: serChars v)) from rfl]
          simp]
        rw [skipWs_cons_not (by decide)]
        dsimp only
        rw [if_pos (rfl : dquote = dquote)]
        rw [parseStrBody_round k.toList f (':' :: (serChars v ++ (rbrace :: rest)))
          (by omega)]
        dsimp only
        rw [skipWs_cons_not (by decide)]
        dsimp only
        rw [if_pos (rfl : ':' = ':')]
        rw [parseVal_ser v f (rbrace :: rest) hw rfl (by omega)]
        show some (JVal.jobj (insertMember acc (String.mk k.toList) v), rest) =
          some (JVal.jobj (acc ++ (k, v) :: []), rest)
        rw [show insertMember acc (String.mk k.toList) v = jsSetF acc k v from rfl]
        rw [jsSetF_fresh acc k v hfr2]
  | k, v, (k2, v2) :: fs2, fuel, acc, rest, hwf, hfr, hf => by
      have hw : notKey k ((k2, v2) :: fs2) = true ∧ jwf v = true ∧
          jwfObj ((k2, v2) :: fs2) = true := by
        have h2 : ((notKey k ((k2, v2) :: fs2) && jwf v) && jwfObj ((k2, v2) :: fs2)) =
            true := hwf
        simp only [Bool.and_eq_true] at h2
        exact ⟨h2.1.1, h2.1.2, h2.2⟩
      have hfr2 : notKey k acc = true ∧ allFresh acc ((k2, v2) :: fs2) = true := by
        have h2 : (notKey k acc && allFresh acc ((k2, v2) :: fs2)) = true := hfr
        simp only [Bool.and_eq_true] at h2
        exact h2
      have hlv := serLen_pos v
      cases fuel with
      | zero => exact absurd hf (by omega)
      | succ f =>
        simp only [parseMembers]
        have hlen : (serObj ((k, v) :: (k2, v2) :: fs2)).length =
            (escChars k.toList).length + (serChars v).length + 4 +
              (serObj ((k2, v2) :: fs2)).length := by
          rw [show serObj ((k, v) :: (k2, v2) :: fs2) =
              (dquote :: (escChars k.toList ++ (dquote :: ':' :: serChars v))) ++
                ',' :: serObj ((k2, v2) :: fs2) from rfl]
          simp
          omega
        rw [show serObj ((k, v) :: (k2, v2) :: fs2) ++ (rbrace :: rest) =
            dquote :: (escChars k.toList ++
              (dquote :: (':' :: (serChars v ++
                (',' :: (serObj ((k2, v2) :: fs2) ++ (rbrace :: rest))))))) from by
          rw [show serObj ((k, v) :: (k2, v2) :: fs2) =
              (dquote :: (escChars k.toList ++ (dquote :: ':' :: serChars v))) ++
                ',' :: serObj ((k2, v2) :: fs2) from rfl]
          simp]
        rw [skipWs_cons_not (by decide)]
        dsimp only
        rw [if_pos (rfl : dquote = dquote)]
        rw [parseStrBody_round k.toList f
          (':' :: (serChars v ++ (',' :: (serObj ((k2, v2) :: fs2) ++ (rbrace :: rest)))))
          (by omega)]
        dsimp only
        rw [skipWs_cons_not (by decide)]
        dsimp only
        rw [if_pos (rfl : ':' = ':')]
        rw [parseVal_ser v f
          (',' :: (serObj ((k2, v2) :: fs2) ++ (rbrace :: rest))) hw.2.1 rfl (by omega)]
        show parseMembers f (serObj ((k2, v2) :: fs2) ++ (rbrace :: rest))
            (insertMember acc (String.mk k.toList) v) =
          some (JVal.jobj (acc ++ (k, v) :: (k2, v2) :: fs2), rest)
        rw [show insertMember acc (String.mk k.toList) v = jsSetF acc k v from rfl]
        rw [jsSetF_fresh acc k v hfr2.1]
        rw [parseMembers_ser k2 v2 fs2 f (acc ++ [(k, v)]) rest hw.2.2
          (allFresh_snoc ((k2, v2) :: fs2) acc k v hfr2.2 hw.1) (by omega)]
        simp
termination_by k v fs fuel acc rest h1 h2 h3 => 2 + sizeOf v + sizeOf fs
decreasing_by all_goals (subst_vars; first | (simp; omega) | simp | omega)

end

/-- `JSON.parse` inverts `JSON.stringify` on well-formed values. -/
theorem jsonParse_ser (v : JVal) (hwf : jwf v = true) :
    jsonParse (jsonSerialize v) = some v := by
  unfold jsonParse
  rw [show (jsonSerialize v).length = (serChars v).length from rfl]
  rw [show (jsonSerialize v).toList = serChars v from rfl]
  have hp := parseVal_ser v (4 * ((serChars v).length + 1)) [] hwf rfl (by omega)
  rw [List.append_nil] at hp
  rw [hp]
  rfl

/-- The serialization of a well-formed value survives the trial parse. -/
theorem jparseOk_ser (v : JVal) (hwf : jwf v = true) :
    jparseOk (serChars v) = true := by
  unfold jparseOk
  rw [show String.mk (serChars v) = jsonSerialize v from rfl, jsonParse_ser v hwf]
  rfl

/-! ### C6: assembling `extractJsonFromText` -/

/-- If strategy 1 succeeds, extraction returns its result. -/
theorem extract_via_strategy1 {s : String} {r : String}
    (h1 : strategy1 s.toList = some r) :
    extractJsonFromText s = some r := by
  unfold extractJsonFromText
  dsimp only
  rw [h1]

/-- If strategy 1 fails and strategy 2 succeeds, extraction returns the
strategy-2 result. -/
theorem extract_via_strategy2 {s : String} {r : String}
    (h1 : strategy1 s.toList = none)
    (h2 : strat2Aux false 0 [] s.toList = some r) :
    extractJsonFromText s = some r := by
  unfold extractJsonFromText
  dsimp only
  rw [h1, h2]

/-- A brace/backtick-free list is backtick-free. -/
theorem noBB_btickFree : ∀ l : List Char, noBB l = true → btickFree l = true
  | [], _ => rfl
  | c :: l2, h => by
      simp only [noBB, List.all_cons, Bool.and_eq_true] at h
      have hc := h.1
      simp only [plainChar, Bool.and_eq_true] at hc
      simp only [btickFree, List.all_cons, Bool.and_eq_true]
      exact ⟨hc.2, noBB_btickFree l2 h.2⟩

/-- A brace/backtick-free list is brace-free. -/
theorem noBB_braceFree : ∀ l : List Char, noBB l = true → braceFree l = true
  | [], _ => rfl
  | c :: l2, h => by
      simp only [noBB, List.all_cons, Bool.and_eq_true] at h
      have hc := h.1
      simp only [plainChar, Bool.and_eq_true] at hc
      simp only [braceFree, List.all_cons, Bool.and_eq_true]
      exact ⟨⟨hc.1.1, hc.1.2⟩, noBB_braceFree l2 h.2⟩

/-- Claim C6 counterexample: the object with the two members `a` (whose
string value contains a closing brace) and `b` (an empty object) serializes
to valid JSON, but on that very serialization the extraction function
returns the two-character empty-object slice found by the brace-counting
strategy, and that slice parses to the empty object, which is not deep-equal
to the original object.  So extraction does not return a string parsing to
an object deep-equal to the original for every valid JSON object given as
the entire input. -/
theorem C6_counterexample :
    extractJsonFromText
        (jsonSerialize (JVal.jobj [("a", JVal.jstr "x\x7d"), ("b", JVal.jobj [])])) =
      some "\x7b\x7d" ∧
    jsonParse "\x7b\x7d" = some (JVal.jobj []) ∧
    JVal.jobj [] ≠ JVal.jobj [("a", JVal.jstr "x\x7d"), ("b", JVal.jobj [])] :=
  ⟨by decide, by decide, by decide⟩

/-- Claim C6 (amended): for every JSON object with pairwise distinct keys
whose string literals contain no brace and no backtick, and prose free of
braces and backticks, the extraction function applied to (a) the
serialization inside a fenced code block, (b) the serialization embedded in
prose, and (c) the serialization as the entire input, returns exactly the
serialization, and the serialization parses back to an object deep-equal to
the original. -/
theorem C6_amended (fs : List (String × JVal)) (p1 p2 : List Char)
    (hwf : jwf (JVal.jobj fs) = true)
    (hbb : jnoBB (JVal.jobj fs) = true)
    (hp1 : noBB p1 = true)
    (hp2 : btickFree p2 = true) :
    extractJsonFromText (String.mk (fenceWrap p1 (serChars (JVal.jobj fs)) p2)) =
      some (jsonSerialize (JVal.jobj fs)) ∧
    extractJsonFromText (String.mk (p1 ++ (serChars (JVal.jobj fs) ++ p2))) =
      some (jsonSerialize (JVal.jobj fs)) ∧
    extractJsonFromText (jsonSerialize (JVal.jobj fs)) =
      some (jsonSerialize (JVal.jobj fs)) ∧
    jsonParse (jsonSerialize (JVal.jobj fs)) = some (JVal.jobj fs) := by
  have hok : jparseOk (serChars (JVal.jobj fs)) = true := jparseOk_ser _ hwf
  have hserOk : serOkC (serChars (JVal.jobj fs)) := serFacts _ hbb
  have hobjOk : serOkC (serObj fs) := serObjFacts fs hbb
  have hbt1 : btickFree p1 = true := noBB_btickFree p1 hp1
  have hbf1 : braceFree p1 = true := noBB_braceFree p1 hp1
  refine ⟨?_, ?_, ?_, jsonParse_ser _ hwf⟩
  · exact extract_via_strategy1
      (show strategy1 (fenceWrap p1 (serChars (JVal.jobj fs)) p2) =
          some (jsonSerialize (JVal.jobj fs)) from
        strategy1_fenced fs p1 p2 hbt1 hserOk.1 hok)
  · refine extract_via_strategy2 ?_ ?_
    · show strategy1 (p1 ++ (serChars (JVal.jobj fs) ++ p2)) = none
      apply strategy1_none
      have h3 : btickFree (serChars (JVal.jobj fs)) = true := hserOk.1
      simp only [btickFree, List.all_append, Bool.and_eq_true] at hbt1 hp2 h3 ⊢
      exact ⟨hbt1, h3, hp2⟩
    · exact strat2_text fs p1 p2 hbf1 hobjOk hok
  · refine extract_via_strategy2 ?_ ?_
    · show strategy1 (serChars (JVal.jobj fs)) = none
      exact strategy1_none _ hserOk.1
    · show strat2Aux false 0 [] (serChars (JVal.jobj fs)) =
        some (jsonSerialize (JVal.jobj fs))
      have h2c := strat2_text fs [] [] rfl hobjOk hok
      rw [List.nil_append, List.append_nil] at h2c
      exact h2c

/-- Witness for C6 (amended) at a concrete object embedded in prose. -/
theorem C6_witness :
    extractJsonFromText (String.mk ("Result: ".toList ++
        (serChars (JVal.jobj [("a", JVal.jnum 1)]) ++ " done".toList))) =
      some (jsonSerialize (JVal.jobj [("a", JVal.jnum 1)])) ∧
    jsonParse (jsonSerialize (JVal.jobj [("a", JVal.jnum 1)])) =
      some (JVal.jobj [("a", JVal.jnum 1)]) :=
  ⟨(C6_amended [("a", JVal.jnum 1)] "Result: ".toList " done".toList
      (by decide) (by decide) (by decide) (by decide)).2.1,
   (C6_amended [("a", JVal.jnum 1)] "Result: ".toList " done".toList
      (by decide) (by decide) (by decide) (by decide)).2.2.2⟩

end FormAgent
